import Mathlib

/-!
# Off-chain data sample: store writer and transaction parser

A shallow embedding of `off_chain_data/application-go/store/flatFille.go` and
`off_chain_data/application-go/parser/transaction.go`.

* Package-level variables (`transactionCount`, the content of the store file,
  standard output) become fields of an explicit state that every call takes
  and returns.
* A Go `panic` is the `Except.error` result.
* Library calls (`json.Marshal`, `proto.Unmarshal`, the `os` file operations)
  are parameters of the definitions that use them.
-/

namespace OffChainData

namespace Store

/-- The number of values of Go's `uint` on a 64-bit target: arithmetic on
`transactionCount` is taken modulo this number. -/
def uintModulus : Nat := 2 ^ 64

/-- Modelled from the spec: the `LedgerUpdate` type is declared in another
file of the package; the store only reads its ordered sequence of writes. The type
`W` of one write is left open. -/
structure LedgerUpdate (W : Type) where
  Writes : List W

/-- The process state the store touches: the failure-simulation counter, the
content of the file named by `storeFile`, and the lines printed so far. -/
structure State where
  transactionCount : Nat
  file : String
  stdout : List String
  deriving DecidableEq, Repr

/-- What the three `os` calls of one `ApplyWritesToOffChainStore` call answer:
`none` is a nil error. -/
structure IOFaults where
  openErr : Option String
  writeErr : Option String
  closeErr : Option String
  deriving DecidableEq, Repr

/-- All three file operations succeed. -/
def noFaults : IOFaults := ⟨none, none, none⟩

/-- `simulateFailureIfRequired`, lines 52-61: the returned error (`none` is
nil) and the new value of `transactionCount`. -/
def simulateFailureIfRequired (SimulatedFailureCount transactionCount : Nat) :
    Option String × Nat :=
  if SimulatedFailureCount > 0 ∧ transactionCount ≥ SimulatedFailureCount then
    (some "simulated write failure", 0)
  else
    (none, (transactionCount + 1) % uintModulus)

/-- Go's `strings.Join`. -/
def Join : List String → String → String
  | [], _ => ""
  | [x], _ => x
  | x :: y :: rest, sep => x ++ sep ++ Join (y :: rest) sep

/-- The loop of lines 26-35: marshal every write in order, panic on the first
error. -/
def marshalWrites {W : Type} (marshal : W → Except String String) :
    List W → Except String (List String)
  | [] => .ok []
  | write :: rest =>
    match marshal write with
    | .error err => .error err
    | .ok marshaled =>
      match marshalWrites marshal rest with
      | .error err => .error err
      | .ok writes => .ok (marshaled :: writes)

/-- Lines 26-49 of `ApplyWritesToOffChainStore`: what follows a nil answer of
`simulateFailureIfRequired`. A panic ends the process, so it carries no state. -/
def appendWrites {W : Type} (marshal : W → Except String String) (io : IOFaults)
    (data : LedgerUpdate W) (st : State) : Except String State :=
  match marshalWrites marshal data.Writes with
  | .error err => .error err
  | .ok writes =>
    match io.openErr with
    | some err => .error err
    | none =>
      match io.writeErr with
      | some err => .error err
      | none =>
        match io.closeErr with
        | some err => .error err
        | none => .ok { st with file := st.file ++ (Join writes "\n" ++ "\n") }

/-- `ApplyWritesToOffChainStore`, lines 20-50. -/
def ApplyWritesToOffChainStore {W : Type} (SimulatedFailureCount : Nat)
    (marshal : W → Except String String) (io : IOFaults)
    (data : LedgerUpdate W) (st : State) : Except String State :=
  match simulateFailureIfRequired SimulatedFailureCount st.transactionCount with
  | (some err, count) =>
    .ok { st with transactionCount := count
                  stdout := st.stdout ++ ["[expected error]: " ++ err] }
  | (none, count) =>
    appendWrites marshal io data { st with transactionCount := count }

/-- The value of `transactionCount` after `k` calls of
`simulateFailureIfRequired`, the first one made with the counter at 0. -/
def countAfter (SimulatedFailureCount : Nat) : Nat → Nat
  | 0 => 0
  | k + 1 => (simulateFailureIfRequired SimulatedFailureCount
      (countAfter SimulatedFailureCount k)).2

/-- The error returned by the `k`-th call (`k ≥ 1`) of
`simulateFailureIfRequired`, the first one made with the counter at 0. -/
def kthCallError (SimulatedFailureCount k : Nat) : Option String :=
  (simulateFailureIfRequired SimulatedFailureCount
    (countAfter SimulatedFailureCount (k - 1))).1

/-- A run of calls of `ApplyWritesToOffChainStore`, one after the other; the
run stops at the first panic. -/
def applyAll {W : Type} (SimulatedFailureCount : Nat)
    (marshal : W → Except String String) :
    List (IOFaults × LedgerUpdate W) → State → Except String State
  | [], st => .ok st
  | (io, data) :: rest, st =>
    match ApplyWritesToOffChainStore SimulatedFailureCount marshal io data st with
    | .error err => .error err
    | .ok st1 => applyAll SimulatedFailureCount marshal rest st1

/-- The number of newline characters of a text. -/
def newlineCount (s : String) : Nat := s.data.count '\n'

/-- The text the spec describes for a batch: every record followed by one
newline, in order. -/
def newlineTerminated : List String → String
  | [] => ""
  | record :: rest => record ++ "\n" ++ newlineTerminated rest

/-! ### Configuration: `getSimulatedFailureCount`

The function goes through `float64`. A value of that type is modelled by its
sign and its magnitude `mantissa * 2 ^ exponent`; the model does not bound the
mantissa, so it holds every `float64` value and more. -/

/-- A `float64` value: not-a-number, an infinity, or a finite value
`± mantissa * 2 ^ exponent` (a zero keeps its sign). -/
inductive Float64 where
  | nan
  | inf (negative : Bool)
  | finite (negative : Bool) (mantissa : Nat) (exponent : Int)
  deriving DecidableEq, Repr

/-- Go's `math.Floor`: the greatest integer value not above the argument; the
special values and the zeros are returned as they are. -/
def Floor : Float64 → Float64
  | .nan => .nan
  | .inf negative => .inf negative
  | .finite negative mantissa exponent =>
    if 0 ≤ exponent then .finite negative mantissa exponent
    else if negative then
      .finite true ((mantissa + 2 ^ exponent.natAbs - 1) / 2 ^ exponent.natAbs) 0
    else
      .finite false (mantissa / 2 ^ exponent.natAbs) 0

/-- The comparison `x < 0` on `float64`: false on not-a-number and on both
zeros. -/
def ltZero : Float64 → Bool
  | .nan => false
  | .inf negative => negative
  | .finite negative mantissa _ => negative && mantissa != 0

/-- The magnitude of a finite value with its fraction discarded. -/
def truncatedMagnitude (mantissa : Nat) (exponent : Int) : Nat :=
  if 0 ≤ exponent then mantissa * 2 ^ exponent.toNat
  else mantissa / 2 ^ exponent.natAbs

/-- Go's conversion `uint(x)` of a `float64`: the fraction is discarded; when
the result does not fit `uint` the language leaves the value to the
implementation, which `outOfRange` stands for. -/
def toUint (outOfRange : Float64 → Nat) : Float64 → Nat
  | .nan => outOfRange .nan % uintModulus
  | .inf negative => outOfRange (.inf negative) % uintModulus
  | .finite negative mantissa exponent =>
    if truncatedMagnitude mantissa exponent = 0 then 0
    else if negative = false ∧ truncatedMagnitude mantissa exponent < uintModulus then
      truncatedMagnitude mantissa exponent
    else outOfRange (.finite negative mantissa exponent) % uintModulus

/-- The number of low bits a natural number loses when it is cut to the 53 bits
of a `float64` mantissa: the least `e`, counted up from the given one, with
`n / 2 ^ e < 2 ^ 53`. -/
def droppedBits (n : Nat) : Nat → Nat → Nat
  | 0, e => e
  | fuel + 1, e => if n / 2 ^ e < 2 ^ 53 then e else droppedBits n fuel (e + 1)

/-- The `float64` nearest to a natural number below `2 ^ 1024`, ties going to
the even mantissa (IEEE 754 round-to-nearest-even): what `strconv.ParseFloat`
documents to return on the decimal text of the number. -/
def nearestFloat64 (n : Nat) : Float64 :=
  let e := droppedBits n 1100 0
  let q := n / 2 ^ e
  let r := n % 2 ^ e
  if e = 0 then .finite false n 0
  else if 2 ^ (e - 1) < r ∨ (r = 2 ^ (e - 1) ∧ q % 2 = 1) then .finite false (q + 1) e
  else .finite false q e

/-- The value of a non-empty list of decimal digits, most significant first. -/
def digitsValue : List Char → Nat → Option Nat
  | [], _ => none
  | [c], acc => if c.isDigit then some (acc * 10 + (c.toNat - 48)) else none
  | c :: d :: rest, acc =>
    if c.isDigit then digitsValue (d :: rest) (acc * 10 + (c.toNat - 48)) else none

/-- The sign flipped. -/
def Float64.neg : Float64 → Float64
  | .nan => .nan
  | .inf negative => .inf (!negative)
  | .finite negative mantissa exponent => .finite (!negative) mantissa exponent

/-- The function `strconv.ParseFloat(s, 64)` on the texts made of an optional
sign and decimal digits, where it returns the nearest `float64`. The library
accepts more texts (fractions, exponents, hexadecimal, infinities); this
instance answers them with a syntax error and is used on integer texts only. -/
def parseFloatDecimalInteger (s : String) : Except String Float64 :=
  match s.data with
  | '-' :: digits =>
    match digitsValue digits 0 with
    | some n => .ok (nearestFloat64 n).neg
    | none => .error "invalid syntax"
  | '+' :: digits =>
    match digitsValue digits 0 with
    | some n => .ok (nearestFloat64 n)
    | none => .error "invalid syntax"
  | digits =>
    match digitsValue digits 0 with
    | some n => .ok (nearestFloat64 n)
    | none => .error "invalid syntax"

/-- Modelled from the spec: `utils.EnvOrDefault` is declared in package
`utils`. It answers the value of the environment variable, and the default
when the variable is unset (`none`). -/
def EnvOrDefault (value : Option String) (defaultValue : String) : String :=
  match value with
  | none => defaultValue
  | some v => v

/-- `getSimulatedFailureCount`, lines 63-76. `env` is the value of
`SIMULATED_FAILURE_COUNT` in the environment, `parseFloat` is
`strconv.ParseFloat(·, 64)`. -/
def getSimulatedFailureCount (parseFloat : String → Except String Float64)
    (outOfRange : Float64 → Nat) (env : Option String) : Except String Nat :=
  let valueAsString := EnvOrDefault env "0"
  match parseFloat valueAsString with
  | .error err => .error err
  | .ok valueAsFloat =>
    let result := Floor valueAsFloat
    if ltZero valueAsFloat then
      .error ("invalid SIMULATED_FAILURE_COUNT value: " ++ valueAsString)
    else
      .ok (toUint outOfRange result)

end Store

end OffChainData


namespace OffChainData

namespace Parser

/-- A Go `[]byte`. -/
abbrev Bytes := List (Fin 256)

/-! ### The protobuf messages the parser reads

These are declared by the `fabric-protos-go-apiv2` library. A field that holds a
message is `none` when unset, which is what its getter reports as nil. -/

/-- The message `peer.TransactionAction`. -/
structure TransactionAction where
  header : Bytes
  payload : Bytes
  deriving DecidableEq, Repr

/-- The message `peer.Transaction`; an element of `actions` may be a nil pointer. -/
structure PeerTransaction where
  actions : List (Option TransactionAction)
  deriving DecidableEq, Repr

/-- The message `peer.ChaincodeEndorsedAction`; an endorsement is kept as its
endorser and signature bytes. -/
structure ChaincodeEndorsedAction where
  proposalResponsePayload : Bytes
  endorsements : List (Bytes × Bytes)
  deriving DecidableEq, Repr

/-- The message `peer.ChaincodeActionPayload`. -/
structure ChaincodeActionPayload where
  chaincodeProposalPayload : Bytes
  action : Option ChaincodeEndorsedAction
  deriving DecidableEq, Repr

/-- The message `peer.ProposalResponsePayload`. -/
structure ProposalResponsePayload where
  proposalHash : Bytes
  extension : Bytes
  deriving DecidableEq, Repr

/-- The message `peer.ChaincodeAction`, with the fields the parser can reach:
the results and events bytes. -/
structure ChaincodeAction where
  results : Bytes
  events : Bytes
  deriving DecidableEq, Repr

/-- The message `rwset.NsReadWriteSet`: a namespace name and the bytes of its
key-level read/write set. -/
structure NsReadWriteSet where
  nameSpace : String
  rwset : Bytes
  deriving DecidableEq, Repr

/-- The message `rwset.TxReadWriteSet`. -/
structure TxReadWriteSet where
  dataModel : Nat
  nsRwset : List NsReadWriteSet
  deriving DecidableEq, Repr

/-- The message `common.Payload`, header kept as bytes. -/
structure CommonPayload where
  header : Bytes
  data : Bytes
  deriving DecidableEq, Repr

/-- The value a Go `panic` carries: the error of a failed `proto.Unmarshal`, or
the error `utils.AssertDefined` raises with the message it was given. -/
inductive Panic where
  | decode (err : String)
  | assertion (message : String)
  deriving DecidableEq, Repr

/-- The calls of `proto.Unmarshal`, one function for each message type the
parser unmarshals into; `Except.error` is a non-nil `err`. -/
structure ProtoUnmarshal where
  chaincodeActionPayload : Bytes → Except String ChaincodeActionPayload
  proposalResponsePayload : Bytes → Except String ProposalResponsePayload
  chaincodeAction : Bytes → Except String ChaincodeAction
  txReadWriteSet : Bytes → Except String TxReadWriteSet

/-- The statement `if err := proto.Unmarshal(b, msg); err != nil { panic(err) }`. -/
def unmarshalOrPanic {α : Type} (unmarshal : Bytes → Except String α) (b : Bytes) :
    Except Panic α :=
  match unmarshal b with
  | .error err => .error (.decode err)
  | .ok msg => .ok msg

/-- Modelled from the spec: `utils.AssertDefined` is declared in package
`utils`. The absence of the value is a fatal structural error carrying the
given message; a present value is returned. -/
def AssertDefined {α : Type} (value : Option α) (message : String) : Except Panic α :=
  match value with
  | none => .error (.assertion message)
  | some v => .ok v

/-- A key read of a namespace: the key and, when present, the version (block
and transaction number) read. -/
structure KVRead where
  key : String
  version : Option (Nat × Nat)
  deriving DecidableEq, Repr

/-- A key write of a namespace: key, value bytes, deletion flag. -/
structure KVWrite where
  key : String
  value : Bytes
  isDelete : Bool
  deriving DecidableEq, Repr

/-- Modelled from the spec: the public `NamespaceReadWriteSet` model is declared
in another file of the package. It is a namespace name with its reads and writes,
each in order. -/
structure NamespaceReadWriteSet where
  nameSpace : String
  reads : List KVRead
  writes : List KVWrite
  deriving DecidableEq, Repr

/-- Modelled from the spec: the `ReadWriteSet` that `ParseReadWriteSet` builds is
declared in another file of the package. It wraps the read/write-set structure it
was parsed from. -/
structure ReadWriteSet where
  readWriteSet : TxReadWriteSet
  deriving DecidableEq, Repr

/-- Modelled from the spec: `ParseReadWriteSet` is declared in another file of
the package; it wraps its argument. -/
def ParseReadWriteSet (txReadWriteSet : TxReadWriteSet) : ReadWriteSet :=
  ⟨txReadWriteSet⟩

/-- Modelled from the spec: `ReadWriteSet.NamespaceReadWriteSets` is declared
in another file of the package. Each namespace entry of the wrapped structure is
parsed into the public model, in the order of the source structure;
`parseNamespace` is the parser of one entry. -/
def ReadWriteSet.NamespaceReadWriteSets
    (parseNamespace : NsReadWriteSet → NamespaceReadWriteSet) (r : ReadWriteSet) :
    List NamespaceReadWriteSet :=
  r.readWriteSet.nsRwset.map parseNamespace

/-- The loop `for _, x := range xs { result = append(result, f(x)) }` where `f`
may panic. -/
def rangeAppend {α β : Type} (f : α → Except Panic β) : List α → Except Panic (List β)
  | [] => .ok []
  | x :: rest =>
    match f x with
    | .error p => .error p
    | .ok y =>
      match rangeAppend f rest with
      | .error p => .error p
      | .ok result => .ok (y :: result)

/-- The type `EndorserTransactionImpl`, lines 70-72; the pointer may be nil. -/
structure EndorserTransactionImpl where
  transaction : Option PeerTransaction
  deriving DecidableEq, Repr

/-- `ParseEndorserTransaction`, lines 74-76. -/
def ParseEndorserTransaction (transaction : Option PeerTransaction) :
    EndorserTransactionImpl :=
  ⟨transaction⟩

/-- The getter `GetActions`: nil on a nil transaction. -/
def GetActions (transaction : Option PeerTransaction) : List (Option TransactionAction) :=
  match transaction with
  | none => []
  | some tx => tx.actions

/-- The getter `GetPayload`: nil on a nil action. -/
def GetPayload (transactionAction : Option TransactionAction) : Bytes :=
  match transactionAction with
  | none => []
  | some a => a.payload

/-- `unmarshalChaincodeActionPayloads`, lines 95-106. -/
def EndorserTransactionImpl.unmarshalChaincodeActionPayloads (um : ProtoUnmarshal)
    (p : EndorserTransactionImpl) : Except Panic (List ChaincodeActionPayload) :=
  rangeAppend (fun transactionAction =>
    unmarshalOrPanic um.chaincodeActionPayload (GetPayload transactionAction))
    (GetActions p.transaction)

/-- `extractChaincodeEndorsedActionsFrom`, lines 108-120. -/
def extractChaincodeEndorsedActionsFrom
    (chaincodeActionPayloads : List ChaincodeActionPayload) :
    Except Panic (List ChaincodeEndorsedAction) :=
  rangeAppend (fun payload =>
    AssertDefined payload.action "missing chaincode endorsed action")
    chaincodeActionPayloads

/-- `unmarshalProposalResponsePayloadsFrom`, lines 122-132. -/
def unmarshalProposalResponsePayloadsFrom (um : ProtoUnmarshal)
    (chaincodeEndorsedActions : List ChaincodeEndorsedAction) :
    Except Panic (List ProposalResponsePayload) :=
  rangeAppend (fun endorsedAction =>
    unmarshalOrPanic um.proposalResponsePayload endorsedAction.proposalResponsePayload)
    chaincodeEndorsedActions

/-- `unmarshalChaincodeActionsFrom`, lines 134-144. -/
def unmarshalChaincodeActionsFrom (um : ProtoUnmarshal)
    (proposalResponsePayloads : List ProposalResponsePayload) :
    Except Panic (List ChaincodeAction) :=
  rangeAppend (fun proposalResponsePayload =>
    unmarshalOrPanic um.chaincodeAction proposalResponsePayload.extension)
    proposalResponsePayloads

/-- `unmarshalTxReadWriteSetsFrom`, lines 146-156: an action whose results do
not unmarshal is skipped by `continue`. -/
def unmarshalTxReadWriteSetsFrom (um : ProtoUnmarshal) :
    List ChaincodeAction → List TxReadWriteSet
  | [] => []
  | chaincodeAction :: rest =>
    match um.txReadWriteSet chaincodeAction.results with
    | .error _ => unmarshalTxReadWriteSetsFrom um rest
    | .ok txReadWriteSet => txReadWriteSet :: unmarshalTxReadWriteSetsFrom um rest

/-- `parseReadWriteSets`, lines 158-165. -/
def parseReadWriteSets : List TxReadWriteSet → List ReadWriteSet
  | [] => []
  | txReadWriteSet :: rest => ParseReadWriteSet txReadWriteSet :: parseReadWriteSets rest

/-- `EndorserTransactionImpl.ReadWriteSets`, lines 79-93. -/
def EndorserTransactionImpl.ReadWriteSets (um : ProtoUnmarshal)
    (p : EndorserTransactionImpl) : Except Panic (List ReadWriteSet) :=
  match p.unmarshalChaincodeActionPayloads um with
  | .error e => .error e
  | .ok chaincodeActionPayloads =>
    match extractChaincodeEndorsedActionsFrom chaincodeActionPayloads with
    | .error e => .error e
    | .ok chaincodeEndorsedActions =>
      match unmarshalProposalResponsePayloadsFrom um chaincodeEndorsedActions with
      | .error e => .error e
      | .ok proposalResponsePayloads =>
        match unmarshalChaincodeActionsFrom um proposalResponsePayloads with
        | .error e => .error e
        | .ok chaincodeActions =>
          .ok (parseReadWriteSets (unmarshalTxReadWriteSetsFrom um chaincodeActions))

/-- `EndorserTransactionImpl.ToProto`, lines 167-169. -/
def EndorserTransactionImpl.ToProto (p : EndorserTransactionImpl) :
    Option PeerTransaction :=
  p.transaction

/-- Modelled from the spec: the `Payload` interface is declared in another
file of the package. A value of it is the record of what its methods answer:
`EndorserTransaction` decodes the payload data and may panic on malformed
bytes; the other methods read the committed payload. -/
structure Payload where
  EndorserTransaction : Except Panic EndorserTransactionImpl
  TransactionValidationCode : Int
  IsValid : Bool
  ToProto : CommonPayload

/-- The type `TransactionImpl`, lines 23-25. -/
structure TransactionImpl where
  payload : Payload

/-- `NewTransactionImpl`, lines 27-29. -/
def NewTransactionImpl (payload : Payload) : TransactionImpl := ⟨payload⟩

/-- The loop of lines 45-48: append the namespace read/write sets of each
read/write set in turn. -/
def appendNamespaceReadWriteSets
    (parseNamespace : NsReadWriteSet → NamespaceReadWriteSet) :
    List ReadWriteSet → List NamespaceReadWriteSet
  | [] => []
  | readWriteSet :: rest =>
    readWriteSet.NamespaceReadWriteSets parseNamespace ++
      appendNamespaceReadWriteSets parseNamespace rest

/-- `TransactionImpl.NamespaceReadWriteSets`, lines 44-51. -/
def TransactionImpl.NamespaceReadWriteSets (um : ProtoUnmarshal)
    (parseNamespace : NsReadWriteSet → NamespaceReadWriteSet) (t : TransactionImpl) :
    Except Panic (List NamespaceReadWriteSet) :=
  match t.payload.EndorserTransaction with
  | .error e => .error e
  | .ok endorserTransaction =>
    match endorserTransaction.ReadWriteSets um with
    | .error e => .error e
    | .ok readWriteSets => .ok (appendNamespaceReadWriteSets parseNamespace readWriteSets)

/-- `TransactionImpl.ValidationCode`, lines 53-55. -/
def TransactionImpl.ValidationCode (t : TransactionImpl) : Int :=
  t.payload.TransactionValidationCode

/-- `TransactionImpl.IsValid`, lines 57-59. -/
def TransactionImpl.IsValid (t : TransactionImpl) : Bool :=
  t.payload.IsValid

/-- `TransactionImpl.ToProto`, lines 61-63. -/
def TransactionImpl.ToProto (t : TransactionImpl) : CommonPayload :=
  t.payload.ToProto

/-- Lines 80-86 of `ReadWriteSets`: the four stages that may panic, each one
run over all actions before the next starts. -/
def EndorserTransactionImpl.chaincodeActions (um : ProtoUnmarshal)
    (p : EndorserTransactionImpl) : Except Panic (List ChaincodeAction) :=
  match p.unmarshalChaincodeActionPayloads um with
  | .error e => .error e
  | .ok chaincodeActionPayloads =>
    match extractChaincodeEndorsedActionsFrom chaincodeActionPayloads with
    | .error e => .error e
    | .ok chaincodeEndorsedActions =>
      match unmarshalProposalResponsePayloadsFrom um chaincodeEndorsedActions with
      | .error e => .error e
      | .ok proposalResponsePayloads =>
        unmarshalChaincodeActionsFrom um proposalResponsePayloads

/-! ### The per-action reading of the pipeline -/

/-- One step that may panic followed by another. -/
def andThen {α β γ : Type} (f : α → Except Panic β) (g : β → Except Panic γ) (x : α) :
    Except Panic γ :=
  match f x with
  | .error e => .error e
  | .ok y => g y

/-- Stages 1-4 on one action, each stage in turn: unmarshal the payload, take
the endorsed action, unmarshal the response payload, unmarshal the extension. -/
def chaincodeActionOf (um : ProtoUnmarshal) (transactionAction : Option TransactionAction) :
    Except Panic ChaincodeAction :=
  match unmarshalOrPanic um.chaincodeActionPayload (GetPayload transactionAction) with
  | .error e => .error e
  | .ok payload =>
    match AssertDefined payload.action "missing chaincode endorsed action" with
    | .error e => .error e
    | .ok endorsedAction =>
      match unmarshalOrPanic um.proposalResponsePayload
          endorsedAction.proposalResponsePayload with
      | .error e => .error e
      | .ok proposalResponsePayload =>
        unmarshalOrPanic um.chaincodeAction proposalResponsePayload.extension

/-- Stages 5-6 on one chaincode action: no entry when the results do not
unmarshal, one parsed read/write set otherwise. -/
def readWriteSetsOfChaincodeAction (um : ProtoUnmarshal) (chaincodeAction : ChaincodeAction) :
    List ReadWriteSet :=
  match um.txReadWriteSet chaincodeAction.results with
  | .error _ => []
  | .ok txReadWriteSet => [ParseReadWriteSet txReadWriteSet]

/-- What one action contributes to `ReadWriteSets` when it passes stages 1-4. -/
def readWriteSetsOfAction (um : ProtoUnmarshal)
    (transactionAction : Option TransactionAction) : List ReadWriteSet :=
  match chaincodeActionOf um transactionAction with
  | .error _ => []
  | .ok chaincodeAction => readWriteSetsOfChaincodeAction um chaincodeAction

/-- The namespace read/write sets one action contributes: those of its parsed
read/write set, none when it contributes no read/write set. -/
def namespaceReadWriteSetsOfAction (um : ProtoUnmarshal)
    (parseNamespace : NsReadWriteSet → NamespaceReadWriteSet)
    (transactionAction : Option TransactionAction) : List NamespaceReadWriteSet :=
  (readWriteSetsOfAction um transactionAction).flatMap
    (fun r => r.NamespaceReadWriteSets parseNamespace)

/-! ### A small wire format for worked examples

Each message is a tag byte followed by its content; the tag 255 does not
unmarshal, and the empty byte string is the empty message. -/

/-- Example unmarshalling of an action payload: the content becomes the
response-payload bytes of the endorsed action; the empty message has none. -/
def exampleChaincodeActionPayload : Bytes → Except String ChaincodeActionPayload
  | [] => .ok ⟨[], none⟩
  | tag :: content =>
    if tag = 255 then .error "cannot parse invalid wire-format data"
    else .ok ⟨[], some ⟨content, []⟩⟩

/-- Example unmarshalling of a response payload: the content becomes the
extension bytes. -/
def exampleProposalResponsePayload : Bytes → Except String ProposalResponsePayload
  | [] => .ok ⟨[], []⟩
  | tag :: content =>
    if tag = 255 then .error "cannot parse invalid wire-format data"
    else .ok ⟨[], content⟩

/-- Example unmarshalling of a chaincode action: the content becomes the results
bytes. -/
def exampleChaincodeAction : Bytes → Except String ChaincodeAction
  | [] => .ok ⟨[], []⟩
  | tag :: content =>
    if tag = 255 then .error "cannot parse invalid wire-format data"
    else .ok ⟨content, []⟩

/-- Example unmarshalling of a read/write set: one namespace `"assets"` whose
key-level bytes are the content. -/
def exampleTxReadWriteSet : Bytes → Except String TxReadWriteSet
  | [] => .ok ⟨0, []⟩
  | tag :: content =>
    if tag = 255 then .error "cannot parse invalid wire-format data"
    else .ok ⟨0, [⟨"assets", content⟩]⟩

/-- The example wire format. -/
def exampleUnmarshal : ProtoUnmarshal :=
  ⟨exampleChaincodeActionPayload, exampleProposalResponsePayload,
    exampleChaincodeAction, exampleTxReadWriteSet⟩

/-- Example parser of one namespace entry: the key-level bytes, when not empty,
are the value written under `"key1"`. -/
def exampleParseNamespace (ns : NsReadWriteSet) : NamespaceReadWriteSet :=
  match ns.rwset with
  | [] => ⟨ns.nameSpace, [], []⟩
  | value => ⟨ns.nameSpace, [], [⟨"key1", value, false⟩]⟩

/-- Action A of the scenario: it decodes through all stages to the namespace
`"assets"` with one write of the value bytes `[65]` under `"key1"`. -/
def exampleActionA : Option TransactionAction := some ⟨[], [1, 1, 1, 1, 65]⟩

/-- Action B of the scenario: it passes stages 1-4, and its results bytes
`[255]` do not unmarshal. -/
def exampleActionB : Option TransactionAction := some ⟨[], [1, 1, 1, 255]⟩

/-- An action whose payload unmarshals to a message without endorsed action. -/
def exampleActionNoEndorsed : Option TransactionAction := some ⟨[], []⟩

/-- An action whose payload bytes do not unmarshal. -/
def exampleActionMalformed : Option TransactionAction := some ⟨[], [255]⟩

/-- A payload whose `EndorserTransaction` answers the given endorser
transaction. -/
def examplePayload (p : EndorserTransactionImpl) : Payload :=
  ⟨.ok p, 0, true, ⟨[], []⟩⟩

/-! ### The payload implementation and the per-action pipeline -/

/-- Modelled from the spec: the implementation of the `Payload` interface is
declared in another file of the package. It holds the wire-level payload, the
committed validation code of the transaction and the decoded endorser
transaction. -/
structure PayloadImpl where
  payload : CommonPayload
  statusCode : Int
  endorserTransaction : Except Panic EndorserTransactionImpl

/-- Modelled from the spec: `TransactionValidationCode` of the payload
implementation, declared in another file of the package: the committed
validation status. -/
def PayloadImpl.TransactionValidationCode (p : PayloadImpl) : Int :=
  p.statusCode

/-- Modelled from the spec: `IsValid` of the payload implementation, declared in
another file of the package: valid exactly when the code equals the canonical
success code `validCode`, a constant fixed by the network. -/
def PayloadImpl.IsValid (validCode : Int) (p : PayloadImpl) : Bool :=
  decide (p.statusCode = validCode)

/-- The payload implementation seen through the `Payload` interface. -/
def PayloadImpl.asPayload (validCode : Int) (p : PayloadImpl) : Payload :=
  ⟨p.endorserTransaction, p.TransactionValidationCode, p.IsValid validCode, p.payload⟩

/-- The pipeline of the spec on one action, stages 1-6 in turn: stages 1-4 may
panic, a results blob that does not unmarshal gives no entry. -/
def readWriteSetsOfActionInTurn (um : ProtoUnmarshal)
    (transactionAction : Option TransactionAction) : Except Panic (List ReadWriteSet) :=
  match chaincodeActionOf um transactionAction with
  | .error e => .error e
  | .ok chaincodeAction => .ok (readWriteSetsOfChaincodeAction um chaincodeAction)

/-- The pipeline as the spec words it, strictly sequential per action: each
action is taken through all stages before the next one starts, the first panic
ends the decode, and the results are concatenated in action order. -/
def perActionLoop (um : ProtoUnmarshal) :
    List (Option TransactionAction) → Except Panic (List ReadWriteSet)
  | [] => .ok []
  | transactionAction :: rest =>
    match readWriteSetsOfActionInTurn um transactionAction with
    | .error e => .error e
    | .ok readWriteSets =>
      match perActionLoop um rest with
      | .error e => .error e
      | .ok result => .ok (readWriteSets ++ result)

/-- The per-action pipeline of the spec on the actions of an endorser
transaction. -/
def ReadWriteSetsPerAction (um : ProtoUnmarshal) (p : EndorserTransactionImpl) :
    Except Panic (List ReadWriteSet) :=
  perActionLoop um (GetActions p.transaction)

/-! ### The parser over a heap of messages

The methods of the parser take pointer receivers and hand pointers around. To
say what a call does to the objects the caller holds, the same functions are
embedded once more over an explicit heap: a message lives at an address,
`&T{}` takes the next free address, `proto.Unmarshal(b, m)` writes the object
at address `m`, and every function takes the heap and returns it. A panic
returns the heap too, as a caller that recovers goes on with it. A message
nested in another one is kept inside its parent; a pointer to the endorsed
action of a payload is the address of that payload. -/

namespace OnHeap

/-- An address of the heap. -/
abbrev Addr := Nat

/-- The messages the parser allocates or is handed, as heap objects. -/
inductive Object where
  | transaction (m : PeerTransaction)
  | chaincodeActionPayload (m : ChaincodeActionPayload)
  | proposalResponsePayload (m : ProposalResponsePayload)
  | chaincodeAction (m : ChaincodeAction)
  | txReadWriteSet (m : TxReadWriteSet)
  | payload (m : CommonPayload)
  deriving DecidableEq, Repr

/-- The heap: the object at address `a` is the `a`-th element. -/
abbrev Heap := List Object

/-- The expression `&T{}`: a new object holding the zero message, at the next
free address. -/
def new (zero : Object) (heap : Heap) : Addr × Heap :=
  (heap.length, heap ++ [zero])

/-- The call `proto.Unmarshal(b, m)`: on success the object at address `m` is
the decoded message; on error the returned error is not nil and the object is
left as `junk b`, whatever the library leaves behind. -/
def protoUnmarshal (decode : Bytes → Except String Object) (junk : Bytes → Object)
    (b : Bytes) (m : Addr) (heap : Heap) : Option String × Heap :=
  match decode b with
  | .error err => (some err, heap.set m (junk b))
  | .ok obj => (none, heap.set m obj)

/-- The loop body shared by lines 98-103, 125-129 and 137-141: allocate a
message, read the bytes, unmarshal them into the message, panic on error. -/
def unmarshalFresh (zero : Object) (decode : Bytes → Except String Object)
    (junk : Bytes → Object) (read : Heap → Bytes) (heap : Heap) :
    Except Panic Addr × Heap :=
  match new zero heap with
  | (msg, heap1) =>
    match protoUnmarshal decode junk (read heap1) msg heap1 with
    | (some err, heap2) => (.error (.decode err), heap2)
    | (none, heap2) => (.ok msg, heap2)

/-- The loop `for _, x := range xs { result = append(result, step(x)) }` where
`step` works on the heap and may panic. -/
def rangeAppendH {α β : Type} (step : α → Heap → Except Panic β × Heap) :
    List α → Heap → Except Panic (List β) × Heap
  | [], heap => (.ok [], heap)
  | x :: rest, heap =>
    match step x heap with
    | (.error e, heap1) => (.error e, heap1)
    | (.ok y, heap1) =>
      match rangeAppendH step rest heap1 with
      | (.error e, heap2) => (.error e, heap2)
      | (.ok result, heap2) => (.ok (y :: result), heap2)

/-- The transaction message at a pointer: `none` for a nil pointer, and for an
address that holds no transaction. -/
def transactionAt (heap : Heap) (transaction : Option Addr) : Option PeerTransaction :=
  match transaction with
  | none => none
  | some a =>
    match heap[a]? with
    | some (.transaction tx) => some tx
    | _ => none

/-- The type `EndorserTransactionImpl`, lines 70-72, holding a pointer. -/
structure EndorserTransactionImpl where
  transaction : Option Addr
  deriving DecidableEq, Repr

/-- `ParseEndorserTransaction`, lines 74-76. -/
def ParseEndorserTransaction (transaction : Option Addr) : EndorserTransactionImpl :=
  ⟨transaction⟩

/-- `EndorserTransactionImpl.ToProto`, lines 167-169. -/
def EndorserTransactionImpl.ToProto (p : EndorserTransactionImpl) : Option Addr :=
  p.transaction

/-- The getter `GetActions` through a pointer. -/
def GetActions (heap : Heap) (transaction : Option Addr) :
    List (Option TransactionAction) :=
  Parser.GetActions (transactionAt heap transaction)

/-- A pointer to the endorsed action of the payload at the given address. -/
structure EndorsedActionPtr where
  payload : Addr
  deriving DecidableEq, Repr

/-- The getter `GetAction` through a pointer: nil when the payload has no
endorsed action. -/
def GetAction (heap : Heap) (payload : Addr) : Option EndorsedActionPtr :=
  match heap[payload]? with
  | some (.chaincodeActionPayload m) =>
    match m.action with
    | some _ => some ⟨payload⟩
    | none => none
  | _ => none

/-- The getter `GetProposalResponsePayload` through a pointer. -/
def GetProposalResponsePayload (heap : Heap) (endorsedAction : EndorsedActionPtr) : Bytes :=
  match heap[endorsedAction.payload]? with
  | some (.chaincodeActionPayload m) =>
    match m.action with
    | some action => action.proposalResponsePayload
    | none => []
  | _ => []

/-- The getter `GetExtension` through a pointer. -/
def GetExtension (heap : Heap) (proposalResponsePayload : Addr) : Bytes :=
  match heap[proposalResponsePayload]? with
  | some (.proposalResponsePayload m) => m.extension
  | _ => []

/-- The getter `GetResults` through a pointer. -/
def GetResults (heap : Heap) (chaincodeAction : Addr) : Bytes :=
  match heap[chaincodeAction]? with
  | some (.chaincodeAction m) => m.results
  | _ => []

/-- The function `proto.Unmarshal` into a `peer.ChaincodeActionPayload`. -/
def decodeChaincodeActionPayload (um : ProtoUnmarshal) (b : Bytes) : Except String Object :=
  match um.chaincodeActionPayload b with
  | .error err => .error err
  | .ok m => .ok (.chaincodeActionPayload m)

/-- The function `proto.Unmarshal` into a `peer.ProposalResponsePayload`. -/
def decodeProposalResponsePayload (um : ProtoUnmarshal) (b : Bytes) : Except String Object :=
  match um.proposalResponsePayload b with
  | .error err => .error err
  | .ok m => .ok (.proposalResponsePayload m)

/-- The function `proto.Unmarshal` into a `peer.ChaincodeAction`. -/
def decodeChaincodeAction (um : ProtoUnmarshal) (b : Bytes) : Except String Object :=
  match um.chaincodeAction b with
  | .error err => .error err
  | .ok m => .ok (.chaincodeAction m)

/-- The function `proto.Unmarshal` into a `rwset.TxReadWriteSet`. -/
def decodeTxReadWriteSet (um : ProtoUnmarshal) (b : Bytes) : Except String Object :=
  match um.txReadWriteSet b with
  | .error err => .error err
  | .ok m => .ok (.txReadWriteSet m)

/-- `unmarshalChaincodeActionPayloads`, lines 95-106: the actions are read once,
when the loop starts. -/
def EndorserTransactionImpl.unmarshalChaincodeActionPayloads (um : ProtoUnmarshal)
    (junk : Bytes → Object) (p : EndorserTransactionImpl) (heap : Heap) :
    Except Panic (List Addr) × Heap :=
  rangeAppendH (fun transactionAction heap1 =>
    unmarshalFresh (.chaincodeActionPayload ⟨[], none⟩) (decodeChaincodeActionPayload um)
      junk (fun _ => GetPayload transactionAction) heap1)
    (GetActions heap p.transaction) heap

/-- `extractChaincodeEndorsedActionsFrom`, lines 108-120. -/
def extractChaincodeEndorsedActionsFrom (chaincodeActionPayloads : List Addr)
    (heap : Heap) : Except Panic (List EndorsedActionPtr) × Heap :=
  rangeAppendH (fun payload heap1 =>
    (AssertDefined (GetAction heap1 payload) "missing chaincode endorsed action", heap1))
    chaincodeActionPayloads heap

/-- `unmarshalProposalResponsePayloadsFrom`, lines 122-132. -/
def unmarshalProposalResponsePayloadsFrom (um : ProtoUnmarshal) (junk : Bytes → Object)
    (chaincodeEndorsedActions : List EndorsedActionPtr) (heap : Heap) :
    Except Panic (List Addr) × Heap :=
  rangeAppendH (fun endorsedAction heap1 =>
    unmarshalFresh (.proposalResponsePayload ⟨[], []⟩) (decodeProposalResponsePayload um)
      junk (fun heap2 => GetProposalResponsePayload heap2 endorsedAction) heap1)
    chaincodeEndorsedActions heap

/-- `unmarshalChaincodeActionsFrom`, lines 134-144. -/
def unmarshalChaincodeActionsFrom (um : ProtoUnmarshal) (junk : Bytes → Object)
    (proposalResponsePayloads : List Addr) (heap : Heap) :
    Except Panic (List Addr) × Heap :=
  rangeAppendH (fun proposalResponsePayload heap1 =>
    unmarshalFresh (.chaincodeAction ⟨[], []⟩) (decodeChaincodeAction um)
      junk (fun heap2 => GetExtension heap2 proposalResponsePayload) heap1)
    proposalResponsePayloads heap

/-- `unmarshalTxReadWriteSetsFrom`, lines 146-156: a message whose unmarshalling
fails stays on the heap and is not appended. -/
def unmarshalTxReadWriteSetsFrom (um : ProtoUnmarshal) (junk : Bytes → Object) :
    List Addr → Heap → List Addr × Heap
  | [], heap => ([], heap)
  | chaincodeAction :: rest, heap =>
    match new (.txReadWriteSet ⟨0, []⟩) heap with
    | (txReadWriteSet, heap1) =>
      match protoUnmarshal (decodeTxReadWriteSet um) junk
          (GetResults heap1 chaincodeAction) txReadWriteSet heap1 with
      | (some _, heap2) => unmarshalTxReadWriteSetsFrom um junk rest heap2
      | (none, heap2) =>
        match unmarshalTxReadWriteSetsFrom um junk rest heap2 with
        | (result, heap3) => (txReadWriteSet :: result, heap3)

/-- Modelled from the spec: the `ReadWriteSet` that `ParseReadWriteSet` builds is
declared in another file of the package. It wraps the pointer to the
read/write-set structure it was parsed from. -/
structure ReadWriteSet where
  readWriteSet : Addr
  deriving DecidableEq, Repr

/-- Modelled from the spec: `ParseReadWriteSet` is declared in another file of
the package; it wraps its argument. -/
def ParseReadWriteSet (txReadWriteSet : Addr) : ReadWriteSet := ⟨txReadWriteSet⟩

/-- `parseReadWriteSets`, lines 158-165. -/
def parseReadWriteSets : List Addr → List ReadWriteSet
  | [] => []
  | txReadWriteSet :: rest => ParseReadWriteSet txReadWriteSet :: parseReadWriteSets rest

/-- `EndorserTransactionImpl.ReadWriteSets`, lines 79-93. -/
def EndorserTransactionImpl.ReadWriteSets (um : ProtoUnmarshal) (junk : Bytes → Object)
    (p : EndorserTransactionImpl) (heap : Heap) :
    Except Panic (List ReadWriteSet) × Heap :=
  match p.unmarshalChaincodeActionPayloads um junk heap with
  | (.error e, heap1) => (.error e, heap1)
  | (.ok chaincodeActionPayloads, heap1) =>
    match extractChaincodeEndorsedActionsFrom chaincodeActionPayloads heap1 with
    | (.error e, heap2) => (.error e, heap2)
    | (.ok chaincodeEndorsedActions, heap2) =>
      match unmarshalProposalResponsePayloadsFrom um junk chaincodeEndorsedActions heap2 with
      | (.error e, heap3) => (.error e, heap3)
      | (.ok proposalResponsePayloads, heap3) =>
        match unmarshalChaincodeActionsFrom um junk proposalResponsePayloads heap3 with
        | (.error e, heap4) => (.error e, heap4)
        | (.ok chaincodeActions, heap4) =>
          match unmarshalTxReadWriteSetsFrom um junk chaincodeActions heap4 with
          | (txReadWriteSets, heap5) => (.ok (parseReadWriteSets txReadWriteSets), heap5)

/-- The read/write-set structure a `ReadWriteSet` wraps, read through its
pointer. -/
def ReadWriteSet.value (heap : Heap) (r : ReadWriteSet) : Option TxReadWriteSet :=
  match heap[r.readWriteSet]? with
  | some (.txReadWriteSet m) => some m
  | _ => none

/-- What a caller sees of an outcome of `ReadWriteSets`: the panic, or the
structures behind the returned pointers, in order. -/
def observe (heap : Heap) (outcome : Except Panic (List ReadWriteSet)) :
    Except Panic (List (Option TxReadWriteSet)) :=
  match outcome with
  | .error e => .error e
  | .ok readWriteSets => .ok (readWriteSets.map (fun r => r.value heap))

/-- The same view of an outcome of the value-level `ReadWriteSets`: the panic,
or the structures the returned read/write sets wrap, in order. -/
def observeValues (outcome : Except Panic (List Parser.ReadWriteSet)) :
    Except Panic (List (Option TxReadWriteSet)) :=
  match outcome with
  | .error e => .error e
  | .ok readWriteSets => .ok (readWriteSets.map (fun v => some v.readWriteSet))

/-- Modelled from the spec: `ReadWriteSet.NamespaceReadWriteSets` is declared
in another file of the package. Each namespace entry of the wrapped structure
is parsed into the public model, in the order of the source structure. -/
def ReadWriteSet.NamespaceReadWriteSets
    (parseNamespace : NsReadWriteSet → NamespaceReadWriteSet) (heap : Heap)
    (r : ReadWriteSet) : List NamespaceReadWriteSet :=
  match r.value heap with
  | some m => m.nsRwset.map parseNamespace
  | none => []

/-- Modelled from the spec: the `Payload` interface is declared in another
file of the package. A value of it is the record of its methods:
`EndorserTransaction` works on the heap and may panic, `ToProto` answers the
pointer to the wire-level payload. -/
structure Payload where
  EndorserTransaction : Heap → Except Panic EndorserTransactionImpl × Heap
  ToProto : Option Addr

/-- The type `TransactionImpl`, lines 23-25. -/
structure TransactionImpl where
  payload : Payload

/-- `NewTransactionImpl`, lines 27-29. -/
def NewTransactionImpl (payload : Payload) : TransactionImpl := ⟨payload⟩

/-- `TransactionImpl.ToProto`, lines 61-63. -/
def TransactionImpl.ToProto (t : TransactionImpl) : Option Addr :=
  t.payload.ToProto

/-- The loop of lines 45-48. -/
def appendNamespaceReadWriteSets
    (parseNamespace : NsReadWriteSet → NamespaceReadWriteSet) (heap : Heap) :
    List ReadWriteSet → List NamespaceReadWriteSet
  | [] => []
  | readWriteSet :: rest =>
    readWriteSet.NamespaceReadWriteSets parseNamespace heap ++
      appendNamespaceReadWriteSets parseNamespace heap rest

/-- `TransactionImpl.NamespaceReadWriteSets`, lines 44-51. -/
def TransactionImpl.NamespaceReadWriteSets (um : ProtoUnmarshal) (junk : Bytes → Object)
    (parseNamespace : NsReadWriteSet → NamespaceReadWriteSet) (t : TransactionImpl)
    (heap : Heap) : Except Panic (List NamespaceReadWriteSet) × Heap :=
  match t.payload.EndorserTransaction heap with
  | (.error e, heap1) => (.error e, heap1)
  | (.ok endorserTransaction, heap1) =>
    match endorserTransaction.ReadWriteSets um junk heap1 with
    | (.error e, heap2) => (.error e, heap2)
    | (.ok readWriteSets, heap2) =>
      (.ok (appendNamespaceReadWriteSets parseNamespace heap2 readWriteSets), heap2)

/-- The namespace read/write sets behind what a caller sees of an outcome of
`ReadWriteSets`: the entries of each structure, parsed in order. -/
def namespaceSetsOf (parseNamespace : NsReadWriteSet → NamespaceReadWriteSet)
    (seen : Except Panic (List (Option TxReadWriteSet))) :
    Except Panic (List NamespaceReadWriteSet) :=
  match seen with
  | .error e => .error e
  | .ok structures =>
    .ok (structures.flatMap (fun o =>
      match o with
      | some m => m.nsRwset.map parseNamespace
      | none => []))

/-- What the payload method `EndorserTransaction` must keep for the decoder to
be repeatable: it leaves every object of the heap as it is, and on every heap
that extends `heap` it either panics with the same value or answers a decoder
of a transaction with the same content. -/
def PayloadRepeatable (payload : Payload) (heap : Heap) : Prop :=
  (∀ h : Heap, ∃ extra, (payload.EndorserTransaction h).2 = h ++ extra) ∧
  ∃ answer : Except Panic (Option PeerTransaction), ∀ extra : Heap,
    match payload.EndorserTransaction (heap ++ extra) with
    | (.error e, _) => answer = .error e
    | (.ok p, heap1) => answer = .ok (transactionAt heap1 p.transaction)

/-- An example payload: its endorser transaction was decoded into the object at
address 0, and its wire-level payload is the object at address 1. -/
def examplePayloadAtZero : Payload :=
  ⟨fun heap => (.ok ⟨some 0⟩, heap), some 1⟩

/-- An example heap: the transaction of actions A and B at address 0, a
wire-level payload at address 1. -/
def exampleHeap : Heap :=
  [.transaction ⟨[exampleActionA, exampleActionB]⟩, .payload ⟨[], [7]⟩]

/-- What a failed unmarshal leaves behind in the examples. -/
def exampleJunk (b : Bytes) : Object := .payload ⟨[], b⟩

end OnHeap

end Parser

end OffChainData

/-! ## Theorems: the store writer -/

namespace OffChainData

namespace Store

theorem simulate_fail_of_ge {N c : Nat} (hN : 0 < N) (hc : N ≤ c) :
    simulateFailureIfRequired N c = (some "simulated write failure", 0) := by
  unfold simulateFailureIfRequired
  rw [if_pos ⟨hN, hc⟩]

theorem simulate_pass_of_lt {N c : Nat} (hc : c < N) :
    simulateFailureIfRequired N c = (none, (c + 1) % uintModulus) := by
  unfold simulateFailureIfRequired
  rw [if_neg]
  rintro ⟨_, h⟩
  omega

theorem simulate_pass_of_zero (c : Nat) :
    simulateFailureIfRequired 0 c = (none, (c + 1) % uintModulus) := by
  unfold simulateFailureIfRequired
  rw [if_neg]
  rintro ⟨h, _⟩
  omega

/-- With a positive failure count inside the `uint` range, the counter after
`k` calls is `k` modulo `N + 1`. -/
theorem countAfter_eq_mod {N : Nat} (hN : 0 < N) (hU : N < uintModulus) (k : Nat) :
    countAfter N k = k % (N + 1) := by
  induction k with
  | zero => simp [countAfter]
  | succ k ih =>
    have hlt : k % (N + 1) < N + 1 := Nat.mod_lt _ (by omega)
    rw [countAfter, ih]
    by_cases hc : N ≤ k % (N + 1)
    · have hEq : k % (N + 1) = N := by omega
      rw [simulate_fail_of_ge hN hc]
      have : (k + 1) % (N + 1) = 0 := by
        rw [Nat.add_mod, hEq, Nat.mod_eq_of_lt (show 1 < N + 1 by omega), Nat.mod_self]
      simp [this]
    · have hc1 : k % (N + 1) < N := by omega
      rw [simulate_pass_of_lt hc1]
      have h1 : (k % (N + 1) + 1) % uintModulus = k % (N + 1) + 1 :=
        Nat.mod_eq_of_lt (by omega)
      have h2 : (k + 1) % (N + 1) = k % (N + 1) + 1 := by
        rw [Nat.add_mod, Nat.mod_eq_of_lt (show 1 < N + 1 by omega)]
        exact Nat.mod_eq_of_lt (by omega)
      simp [h1, h2]

/-- The counter after a call that returns is the one `simulateFailureIfRequired`
leaves. -/
theorem apply_count {W : Type} (N : Nat) (marshal : W → Except String String)
    (io : IOFaults) (data : LedgerUpdate W) (st st1 : State)
    (h : ApplyWritesToOffChainStore N marshal io data st = .ok st1) :
    st1.transactionCount = (simulateFailureIfRequired N st.transactionCount).2 := by
  unfold ApplyWritesToOffChainStore at h
  split at h
  · rename_i err count heq
    simp only [Except.ok.injEq] at h
    rw [heq, ← h]
  · rename_i count heq
    rw [heq]
    unfold appendWrites at h
    split at h
    · simp at h
    · split at h
      · simp at h
      · split at h
        · simp at h
        · split at h
          · simp at h
          · simp only [Except.ok.injEq] at h
            rw [← h]

/-- The counter after a run of calls that all return, started with the counter
at 0, is the one the same number of calls of `simulateFailureIfRequired`
leaves. -/
theorem applyAll_count {W : Type} (N : Nat) (marshal : W → Except String String)
    (calls : List (IOFaults × LedgerUpdate W)) (st0 st : State)
    (h : applyAll N marshal calls st0 = .ok st) :
    st.transactionCount =
      (fun c => (simulateFailureIfRequired N c).2)^[calls.length] st0.transactionCount := by
  induction calls generalizing st0 with
  | nil =>
    simp only [applyAll, Except.ok.injEq] at h
    simp [h]
  | cons call rest ih =>
    obtain ⟨io, data⟩ := call
    simp only [applyAll] at h
    split at h
    · simp at h
    · rename_i st1 h1
      rw [ih st1 h, apply_count N marshal io data st0 st1 h1]
      simp [Function.iterate_succ_apply]

theorem countAfter_eq_iterate (N k : Nat) :
    countAfter N k = (fun c => (simulateFailureIfRequired N c).2)^[k] 0 := by
  induction k with
  | zero => rfl
  | succ k ih => rw [countAfter, ih, Function.iterate_succ_apply']

theorem mod_succ_eq_iff_dvd (N k : Nat) (hk : 1 ≤ k) :
    N ≤ (k - 1) % (N + 1) ↔ (N + 1) ∣ k := by
  have hlt : (k - 1) % (N + 1) < N + 1 := Nat.mod_lt _ (by omega)
  constructor
  · intro h
    have hEq : (k - 1) % (N + 1) = N := by omega
    have hdiv := Nat.div_add_mod (k - 1) (N + 1)
    rw [hEq] at hdiv
    refine ⟨(k - 1) / (N + 1) + 1, ?_⟩
    rw [Nat.mul_add, Nat.mul_one]
    omega
  · rintro ⟨q, hq⟩
    have hq1 : 1 ≤ q := by
      rcases Nat.eq_zero_or_pos q with h0 | h0
      · subst h0; omega
      · exact h0
    obtain ⟨r, rfl⟩ : ∃ r, q = r + 1 := ⟨q - 1, by omega⟩
    have : k - 1 = N + (N + 1) * r := by
      rw [hq, Nat.mul_add, Nat.mul_one]; omega
    rw [this, Nat.add_mul_mod_self_left, Nat.mod_eq_of_lt (by omega)]

/-- With the counter below a positive failure count inside the `uint` range,
the call takes the write path with the counter increased by one. -/
theorem apply_of_lt {W : Type} {N : Nat} (hU : N < uintModulus)
    (marshal : W → Except String String) (io : IOFaults) (data : LedgerUpdate W)
    (st : State) (hc : st.transactionCount < N) :
    ApplyWritesToOffChainStore N marshal io data st =
      appendWrites marshal io data
        { st with transactionCount := st.transactionCount + 1 } := by
  unfold ApplyWritesToOffChainStore
  rw [simulate_pass_of_lt hc, Nat.mod_eq_of_lt (by omega)]

/-- With the counter at or above a positive failure count, the call prints the
expected error, resets the counter and returns. -/
theorem apply_of_ge {W : Type} {N : Nat} (hN : 0 < N)
    (marshal : W → Except String String) (io : IOFaults) (data : LedgerUpdate W)
    (st : State) (hc : N ≤ st.transactionCount) :
    ApplyWritesToOffChainStore N marshal io data st =
      .ok { st with transactionCount := 0
                    stdout := st.stdout ++ ["[expected error]: simulated write failure"] } := by
  unfold ApplyWritesToOffChainStore
  rw [simulate_fail_of_ge hN hc]
  rfl

/-- When marshalling and the three file operations succeed, the write path
appends the joined records and a newline. -/
theorem appendWrites_noFaults {W : Type} (marshal : W → Except String String)
    (data : LedgerUpdate W) (st : State) (writes : List String)
    (hm : marshalWrites marshal data.Writes = .ok writes) :
    appendWrites marshal noFaults data st =
      .ok { st with file := st.file ++ (Join writes "\n" ++ "\n") } := by
  unfold appendWrites
  rw [hm]
  rfl

/-- C1: with `SimulatedFailureCount = N > 0` and the counter starting at 0,
the `k`-th call (`k ≥ 1`) of `simulateFailureIfRequired` returns the
"simulated write failure" error exactly when `k` is a multiple of `N + 1`, and
nil otherwise. The same holds of the `k`-th call of
`ApplyWritesToOffChainStore` after `k - 1` calls that returned: on a multiple
of `N + 1` it prints the expected error, resets the counter and leaves the
file alone; on every other `k` it takes the write path, which appends when
marshalling and the file operations succeed. -/
theorem simulated_failure_every_N_plus_one (W : Type) (N : Nat) (hN : 0 < N)
    (hU : N < uintModulus) (k : Nat) (hk : 1 ≤ k) :
    (kthCallError N k = some "simulated write failure" ↔ (N + 1) ∣ k) ∧
    (¬ (N + 1) ∣ k → kthCallError N k = none) ∧
    ∀ (marshal : W → Except String String) (calls : List (IOFaults × LedgerUpdate W))
      (io : IOFaults) (data : LedgerUpdate W) (st0 st : State),
      st0.transactionCount = 0 → calls.length + 1 = k →
      applyAll N marshal calls st0 = .ok st →
      ((N + 1) ∣ k →
        ApplyWritesToOffChainStore N marshal io data st =
          .ok { st with transactionCount := 0
                        stdout := st.stdout ++
                          ["[expected error]: simulated write failure"] }) ∧
      (¬ (N + 1) ∣ k →
        ApplyWritesToOffChainStore N marshal io data st =
          appendWrites marshal io data
            { st with transactionCount := st.transactionCount + 1 } ∧
        ∀ writes : List String, marshalWrites marshal data.Writes = .ok writes →
          ApplyWritesToOffChainStore N marshal noFaults data st =
            .ok { st with transactionCount := st.transactionCount + 1
                          file := st.file ++ (Join writes "\n" ++ "\n") }) := by
  have hcount : countAfter N (k - 1) = (k - 1) % (N + 1) := countAfter_eq_mod hN hU _
  have hiff := mod_succ_eq_iff_dvd N k hk
  have hlt : (k - 1) % (N + 1) < N + 1 := Nat.mod_lt _ (by omega)
  refine ⟨?_, ?_, ?_⟩
  · unfold kthCallError
    rw [hcount]
    constructor
    · intro h
      by_contra hnd
      have hc : (k - 1) % (N + 1) < N := by
        have := mt hiff.mp hnd
        omega
      rw [simulate_pass_of_lt hc] at h
      simp at h
    · intro hd
      rw [simulate_fail_of_ge hN (hiff.mpr hd)]
  · intro hnd
    unfold kthCallError
    rw [hcount]
    have hc : (k - 1) % (N + 1) < N := by
      have := mt hiff.mp hnd
      omega
    rw [simulate_pass_of_lt hc]
  · intro marshal calls io data st0 st h0 hlen hrun
    have hst : st.transactionCount = (k - 1) % (N + 1) := by
      rw [applyAll_count N marshal calls st0 st hrun, h0, ← countAfter_eq_iterate,
        ← hcount]
      congr 1
      omega
    constructor
    · intro hd
      exact apply_of_ge hN marshal io data st (by rw [hst]; exact hiff.mpr hd)
    · intro hnd
      have hc : st.transactionCount < N := by
        have := mt hiff.mp hnd
        omega
      refine ⟨apply_of_lt hU marshal io data st hc, ?_⟩
      intro writes hm
      rw [apply_of_lt hU marshal noFaults data st hc,
        appendWrites_noFaults marshal data _ writes hm]

/-- C1 at `N = 3`: the fourth call returns the error. -/
theorem simulated_failure_every_N_plus_one_witness :
    kthCallError 3 4 = some "simulated write failure" :=
  (simulated_failure_every_N_plus_one Unit 3 (by decide) (by decide) 4 (by decide)).1.mpr
    ⟨1, rfl⟩

/-- The pattern of the first eight calls at `N = 3`. -/
theorem kthCallError_three :
    (List.range 8).map (fun i => kthCallError 3 (i + 1)) =
      [none, none, none, some "simulated write failure",
       none, none, none, some "simulated write failure"] := by
  decide

theorem marshalWrites_ok {W : Type} (marshal : W → Except String String) :
    ∀ (ws : List W) (writes : List String), marshalWrites marshal ws = .ok writes →
      ws.map marshal = writes.map Except.ok
  | [], writes, h => by
    simp only [marshalWrites, Except.ok.injEq] at h
    simp [← h]
  | w :: ws, writes, h => by
    simp only [marshalWrites] at h
    split at h
    · simp at h
    · rename_i marshaled hw
      split at h
      · simp at h
      · rename_i rest hrest
        simp only [Except.ok.injEq] at h
        rw [← h, List.map_cons, List.map_cons, hw, marshalWrites_ok marshal ws rest hrest]

theorem marshalWrites_of_map {W : Type} (marshal : W → Except String String) :
    ∀ (ws : List W) (writes : List String), ws.map marshal = writes.map Except.ok →
      marshalWrites marshal ws = .ok writes
  | [], writes, h => by
    cases writes with
    | nil => rfl
    | cons r rs => simp at h
  | w :: ws, writes, h => by
    cases writes with
    | nil => simp at h
    | cons r rs =>
      simp only [List.map_cons, List.cons.injEq] at h
      simp only [marshalWrites, h.1, marshalWrites_of_map marshal ws rs h.2]

theorem Join_eq_newlineTerminated :
    ∀ writes : List String, writes ≠ [] →
      Join writes "\n" ++ "\n" = newlineTerminated writes
  | [], h => absurd rfl h
  | [x], _ => by simp [Join, newlineTerminated]
  | x :: y :: rest, _ => by
    rw [Join, newlineTerminated, ← Join_eq_newlineTerminated (y :: rest) (by simp),
      String.append_assoc]

theorem newlineCount_append (a b : String) :
    newlineCount (a ++ b) = newlineCount a + newlineCount b := by
  simp [newlineCount, String.data_append, List.count_append]

theorem newlineCount_newlineTerminated :
    ∀ writes : List String, (∀ record ∈ writes, newlineCount record = 0) →
      newlineCount (newlineTerminated writes) = writes.length
  | [], _ => rfl
  | record :: rest, h => by
    rw [newlineTerminated, newlineCount_append, newlineCount_append,
      h record (List.mem_cons_self _ _),
      newlineCount_newlineTerminated rest (fun r hr => h r (List.mem_cons_of_mem _ hr))]
    simp [newlineCount]
    omega

/-- What a call that returns leaves in the file when `simulateFailureIfRequired`
answered nil: the records joined by newlines, then one newline. -/
theorem apply_file_of_pass {W : Type} (N : Nat) (marshal : W → Except String String)
    (io : IOFaults) (data : LedgerUpdate W) (st st1 : State)
    (hpass : (simulateFailureIfRequired N st.transactionCount).1 = none)
    (h : ApplyWritesToOffChainStore N marshal io data st = .ok st1) :
    ∃ writes : List String, marshalWrites marshal data.Writes = .ok writes ∧
      io = noFaults ∧
      st1 = { st with
                transactionCount := (simulateFailureIfRequired N st.transactionCount).2
                file := st.file ++ (Join writes "\n" ++ "\n") } := by
  unfold ApplyWritesToOffChainStore at h
  split at h
  · rename_i err count heq
    rw [heq] at hpass
    simp at hpass
  · rename_i count heq
    rw [heq]
    unfold appendWrites at h
    split at h
    · simp at h
    · rename_i writes hw
      split at h
      · simp at h
      · rename_i ho
        split at h
        · simp at h
        · rename_i hwr
          split at h
          · simp at h
          · rename_i hcl
            simp only [Except.ok.injEq] at h
            refine ⟨writes, hw, ?_, h.symm⟩
            cases io
            simp_all [noFaults]

/-- C5, as stated, fails on an update with no writes: with the counter at 0,
no failure simulation and an empty file, the call returns without a simulated
failure and leaves the one-character file "\\n", which is not the empty
sequence of newline-terminated records and has one line more than the update
has writes. -/
theorem append_one_line_per_write_counterexample :
    (simulateFailureIfRequired 0 0).1 = none ∧
    ApplyWritesToOffChainStore 0 (fun w : String => Except.ok w) noFaults ⟨[]⟩ ⟨0, "", []⟩ =
      .ok ⟨1, "\n", []⟩ ∧
    "\n" ≠ "" ++ newlineTerminated ([] : List String) ∧
    newlineCount "\n" ≠ newlineCount "" + ([] : List String).length := by
  refine ⟨rfl, rfl, by decide, by decide⟩

/-- C5, amended to updates with at least one write: a call on such an update
that does not signal a simulated failure and returns leaves the file equal to
the prior content followed by the marshalled records of the writes, in order,
each followed by one newline; when no record holds a newline (as with
`json.Marshal`) the file gains exactly as many lines as the update has writes.
When marshalling and the file operations succeed, the call does return. -/
theorem append_one_line_per_write {W : Type} (N : Nat)
    (marshal : W → Except String String) (io : IOFaults) (data : LedgerUpdate W)
    (st : State) (hne : data.Writes ≠ [])
    (hpass : (simulateFailureIfRequired N st.transactionCount).1 = none) :
    (∀ st1 : State, ApplyWritesToOffChainStore N marshal io data st = .ok st1 →
      ∃ writes : List String,
        data.Writes.map marshal = writes.map Except.ok ∧
        st1.file = st.file ++ newlineTerminated writes ∧
        ((∀ record ∈ writes, newlineCount record = 0) →
          newlineCount st1.file = newlineCount st.file + data.Writes.length)) ∧
    (∀ writes : List String, data.Writes.map marshal = writes.map Except.ok →
      ∃ st1 : State, ApplyWritesToOffChainStore N marshal noFaults data st = .ok st1 ∧
        st1.file = st.file ++ newlineTerminated writes) := by
  have hlen : ∀ writes : List String, data.Writes.map marshal = writes.map Except.ok →
      writes.length = data.Writes.length ∧ writes ≠ [] := by
    intro writes hmap
    have h1 := congrArg List.length hmap
    simp only [List.length_map] at h1
    refine ⟨h1.symm, ?_⟩
    intro hnil
    rw [hnil, List.length_nil] at h1
    exact hne (List.length_eq_zero.mp h1)
  constructor
  · intro st1 h
    obtain ⟨writes, hw, -, hst⟩ := apply_file_of_pass N marshal io data st st1 hpass h
    have hmap := marshalWrites_ok marshal data.Writes writes hw
    obtain ⟨hl, hwne⟩ := hlen writes hmap
    have hfile : st1.file = st.file ++ newlineTerminated writes := by
      rw [hst, Join_eq_newlineTerminated writes hwne]
    refine ⟨writes, hmap, hfile, ?_⟩
    intro hrec
    rw [hfile, newlineCount_append, newlineCount_newlineTerminated writes hrec, hl]
  · intro writes hmap
    obtain ⟨-, hwne⟩ := hlen writes hmap
    have hw := marshalWrites_of_map marshal data.Writes writes hmap
    have happ : ApplyWritesToOffChainStore N marshal noFaults data st =
        appendWrites marshal noFaults data
          { st with transactionCount :=
              (simulateFailureIfRequired N st.transactionCount).2 } := by
      unfold ApplyWritesToOffChainStore
      split
      · rename_i err count heq
        rw [heq] at hpass
        simp at hpass
      · rename_i count heq
        rw [heq]
    rw [happ, appendWrites_noFaults marshal data _ writes hw]
    exact ⟨_, rfl, by rw [← Join_eq_newlineTerminated writes hwne]⟩

/-- C5 amended, on two writes appended to a one-line file. -/
theorem append_one_line_per_write_witness :
    ∃ st1 : State,
      ApplyWritesToOffChainStore 3 (fun w : String => Except.ok ("\"" ++ w ++ "\""))
        noFaults ⟨["a", "b"]⟩ ⟨0, "x\n", []⟩ = .ok st1 ∧
      st1.file = "x\n" ++ newlineTerminated ["\"a\"", "\"b\""] :=
  (append_one_line_per_write 3 (fun w : String => Except.ok ("\"" ++ w ++ "\""))
    noFaults ⟨["a", "b"]⟩ ⟨0, "x\n", []⟩ (by simp) (by decide)).2
    ["\"a\"", "\"b\""] rfl

/-- C6: with `SimulatedFailureCount = 0`, whatever the counter,
`simulateFailureIfRequired` returns nil and increments the counter modulo the
`uint` range (from the maximum value it wraps to 0), and
`ApplyWritesToOffChainStore` goes on to the write path: it prints no expected
error, and appends when marshalling and the file operations succeed. -/
theorem no_simulated_failure_when_zero {W : Type} (marshal : W → Except String String)
    (io : IOFaults) (data : LedgerUpdate W) (st : State) :
    simulateFailureIfRequired 0 st.transactionCount =
      (none, (st.transactionCount + 1) % uintModulus) ∧
    simulateFailureIfRequired 0 (uintModulus - 1) = (none, 0) ∧
    ApplyWritesToOffChainStore 0 marshal io data st =
      appendWrites marshal io data
        { st with transactionCount := (st.transactionCount + 1) % uintModulus } ∧
    (∀ writes : List String, marshalWrites marshal data.Writes = .ok writes →
      ApplyWritesToOffChainStore 0 marshal noFaults data st =
        .ok { st with transactionCount := (st.transactionCount + 1) % uintModulus
                      file := st.file ++ (Join writes "\n" ++ "\n") }) ∧
    (∀ st1 : State, ApplyWritesToOffChainStore 0 marshal io data st = .ok st1 →
      st1.stdout = st.stdout) := by
  have happ : ∀ io1 : IOFaults, ApplyWritesToOffChainStore 0 marshal io1 data st =
      appendWrites marshal io1 data
        { st with transactionCount := (st.transactionCount + 1) % uintModulus } := by
    intro io1
    unfold ApplyWritesToOffChainStore
    rw [simulate_pass_of_zero]
  refine ⟨simulate_pass_of_zero _, ?_, happ io, ?_, ?_⟩
  · rw [simulate_pass_of_zero]
    decide
  · intro writes hw
    rw [happ noFaults, appendWrites_noFaults marshal data _ writes hw]
  · intro st1 h
    obtain ⟨writes, -, -, hst⟩ :=
      apply_file_of_pass 0 marshal io data st st1 (by rw [simulate_pass_of_zero]) h
    rw [hst]

/-- C7: with `SimulatedFailureCount = N > 0` and the counter at or above `N`,
the call returns with the file content as it was and the counter at 0; the
state it leaves is the same whatever the update, the marshaller and the file
operations, so nothing of the update reaches a later call. -/
theorem simulated_failure_writes_nothing {W : Type} (N : Nat) (hN : 0 < N)
    (marshal : W → Except String String) (io : IOFaults) (data : LedgerUpdate W)
    (st : State) (hc : N ≤ st.transactionCount) :
    ∃ st1 : State,
      ApplyWritesToOffChainStore N marshal io data st = .ok st1 ∧
      st1.file = st.file ∧ st1.transactionCount = 0 ∧
      ∀ (marshal1 : W → Except String String) (io1 : IOFaults) (data1 : LedgerUpdate W),
        ApplyWritesToOffChainStore N marshal1 io1 data1 st = .ok st1 :=
  ⟨_, apply_of_ge hN marshal io data st hc, rfl, rfl,
    fun marshal1 io1 data1 => apply_of_ge hN marshal1 io1 data1 st hc⟩

/-- C7 at `N = 3` with the counter at 3 and a two-line file. -/
theorem simulated_failure_writes_nothing_witness :
    ∃ st1 : State,
      ApplyWritesToOffChainStore 3 (fun w : String => Except.ok w) noFaults
        ⟨["a"]⟩ ⟨3, "x\ny\n", []⟩ = .ok st1 ∧
      st1.file = "x\ny\n" ∧ st1.transactionCount = 0 ∧
      ∀ (marshal1 : String → Except String String) (io1 : IOFaults)
        (data1 : LedgerUpdate String),
        ApplyWritesToOffChainStore 3 marshal1 io1 data1 ⟨3, "x\ny\n", []⟩ = .ok st1 :=
  simulated_failure_writes_nothing 3 (by decide) (fun w : String => Except.ok w) noFaults
    ⟨["a"]⟩ ⟨3, "x\ny\n", []⟩ (by decide)

theorem nearestFloat64_of_lt {n : Nat} (hn : n < 2 ^ 53) :
    nearestFloat64 n = .finite false n 0 := by
  have h0 : droppedBits n 1100 0 = 0 := by
    show droppedBits n (1099 + 1) 0 = 0
    rw [droppedBits, if_pos]
    rw [pow_zero, Nat.div_one]
    exact hn
  simp only [nearestFloat64, h0]
  simp

theorem toUint_of_exact (outOfRange : Float64 → Nat) {n : Nat} (hn : n < uintModulus) :
    toUint outOfRange (.finite false n 0) = n := by
  simp only [toUint, truncatedMagnitude]
  simp only [le_refl, if_true, Int.toNat_zero, pow_zero, Nat.mul_one]
  by_cases h0 : n = 0
  · simp [h0]
  · simp [h0, hn]

/-- C9, as stated, fails on the decimal text of `2 ^ 53 + 1`, a number inside
the `uint` range: `ParseFloat` answers the nearest `float64`, which is
`2 ^ 53`, and that is what the function returns. -/
theorem getSimulatedFailureCount_counterexample :
    toString 9007199254740993 = "9007199254740993" ∧
    9007199254740993 < uintModulus ∧
    parseFloatDecimalInteger "9007199254740993" = .ok (nearestFloat64 9007199254740993) ∧
    getSimulatedFailureCount parseFloatDecimalInteger (fun _ => 0)
      (some "9007199254740993") = .ok 9007199254740992 ∧
    getSimulatedFailureCount parseFloatDecimalInteger (fun _ => 0)
      (some "9007199254740993") ≠ .ok 9007199254740993 := by
  have h : getSimulatedFailureCount parseFloatDecimalInteger (fun _ => 0)
      (some "9007199254740993") = .ok 9007199254740992 := rfl
  refine ⟨rfl, by decide, rfl, h, ?_⟩
  rw [h]
  simp

/-- C9, amended to the integers that `float64` holds exactly: the function
panics for every value that parses as a number below zero, returns `n` for the
decimal text of every non-negative integer `n ≤ 2 ^ 53` (on which `ParseFloat`
answers the nearest `float64`), and returns 0 when the variable is unset. -/
theorem getSimulatedFailureCount_exact_up_to_2_pow_53
    (parseFloat : String → Except String Float64) (outOfRange : Float64 → Nat) :
    (∀ (s : String) (x : Float64), parseFloat s = .ok x → ltZero x = true →
      getSimulatedFailureCount parseFloat outOfRange (some s) =
        .error ("invalid SIMULATED_FAILURE_COUNT value: " ++ s)) ∧
    (∀ n : Nat, n ≤ 2 ^ 53 → parseFloat (toString n) = .ok (nearestFloat64 n) →
      getSimulatedFailureCount parseFloat outOfRange (some (toString n)) = .ok n) ∧
    (parseFloat "0" = .ok (nearestFloat64 0) →
      getSimulatedFailureCount parseFloat outOfRange none = .ok 0) := by
  have hexact : ∀ (env : Option String) (n : Nat), n < 2 ^ 53 →
      parseFloat (EnvOrDefault env "0") = .ok (nearestFloat64 n) →
      getSimulatedFailureCount parseFloat outOfRange env = .ok n := by
    intro env n hn hparse
    have hu : n < uintModulus := by
      have : (2 : Nat) ^ 53 < uintModulus := by decide
      omega
    rw [nearestFloat64_of_lt hn] at hparse
    simp only [getSimulatedFailureCount, hparse, Floor, ltZero, le_refl, if_true,
      Bool.false_and, Bool.false_eq_true, if_false, toUint_of_exact outOfRange hu]
  refine ⟨?_, ?_, ?_⟩
  · intro s x hparse hneg
    simp only [getSimulatedFailureCount, EnvOrDefault, hparse, hneg, if_true]
  · intro n hn hparse
    rcases Nat.lt_or_ge n (2 ^ 53) with hlt | hge
    · exact hexact (some (toString n)) n hlt hparse
    · have hEq : n = 2 ^ 53 := by omega
      subst hEq
      have hnear : nearestFloat64 (2 ^ 53) = .finite false 4503599627370496 1 := by
        decide
      have hmag : truncatedMagnitude 4503599627370496 1 = 9007199254740992 := by decide
      have hval : toUint outOfRange (.finite false 4503599627370496 1) =
          9007199254740992 := by
        simp only [toUint, hmag]
        rw [if_neg (by decide), if_pos (by decide)]
      rw [hnear] at hparse
      simp only [getSimulatedFailureCount, EnvOrDefault, hparse, Floor, ltZero]
      simp [hval]
  · intro hparse
    exact hexact none 0 (by decide) hparse

/-- C9 amended, on the texts "3" and "-1" and on the unset variable. -/
theorem getSimulatedFailureCount_exact_up_to_2_pow_53_witness :
    getSimulatedFailureCount parseFloatDecimalInteger (fun _ => 0) (some "3") = .ok 3 ∧
    getSimulatedFailureCount parseFloatDecimalInteger (fun _ => 0) (some "-1") =
      .error "invalid SIMULATED_FAILURE_COUNT value: -1" ∧
    getSimulatedFailureCount parseFloatDecimalInteger (fun _ => 0) none = .ok 0 :=
  ⟨(getSimulatedFailureCount_exact_up_to_2_pow_53 parseFloatDecimalInteger
      (fun _ => 0)).2.1 3 (by decide) rfl,
    (getSimulatedFailureCount_exact_up_to_2_pow_53 parseFloatDecimalInteger
      (fun _ => 0)).1 "-1" (.finite true 1 0) rfl rfl,
    (getSimulatedFailureCount_exact_up_to_2_pow_53 parseFloatDecimalInteger
      (fun _ => 0)).2.2 rfl⟩

/-- C14: with `SimulatedFailureCount = N > 0` inside the `uint` range, the
bound `transactionCount ≤ N` is kept by `simulateFailureIfRequired`: starting
from 0 the counter lies in `0..N` after any number of calls, so it never
reaches the end of the `uint` range; from a counter in `0..N` a call returns
either the failure or nil, it leaves 0 exactly when it returns the failure and
the counter plus one, without wrapping, exactly when it returns nil. -/
theorem counter_stays_within_failure_count (N : Nat) (hN : 0 < N)
    (hU : N < uintModulus) :
    (∀ k : Nat, countAfter N k ≤ N ∧ countAfter N k < uintModulus) ∧
    ∀ c : Nat, c ≤ N →
      (simulateFailureIfRequired N c).2 ≤ N ∧
      ((simulateFailureIfRequired N c).1 = some "simulated write failure" ∨
        (simulateFailureIfRequired N c).1 = none) ∧
      ((simulateFailureIfRequired N c).1 = some "simulated write failure" ↔
        (simulateFailureIfRequired N c).2 = 0) ∧
      ((simulateFailureIfRequired N c).1 = none ↔
        (simulateFailureIfRequired N c).2 = c + 1) := by
  constructor
  · intro k
    have hlt : k % (N + 1) < N + 1 := Nat.mod_lt _ (by omega)
    rw [countAfter_eq_mod hN hU k]
    constructor <;> omega
  · intro c hc
    rcases Nat.lt_or_ge c N with hlt | hge
    · have hmod : (c + 1) % uintModulus = c + 1 := Nat.mod_eq_of_lt (by omega)
      rw [simulate_pass_of_lt hlt, hmod]
      refine ⟨by omega, Or.inr rfl, ?_, ?_⟩
      · constructor
        · intro h
          simp at h
        · intro h
          simp at h
      · simp
    · rw [simulate_fail_of_ge hN hge]
      refine ⟨by omega, Or.inl rfl, ?_, ?_⟩
      · simp
      · constructor
        · intro h
          simp at h
        · intro h
          simp only at h
          omega

/-- C14 at `N = 3`: after seven calls the counter is within `0..3`, and the
call made with the counter at 3 returns the failure and leaves 0. -/
theorem counter_stays_within_failure_count_witness :
    (countAfter 3 7 ≤ 3 ∧ countAfter 3 7 < uintModulus) ∧
    ((simulateFailureIfRequired 3 3).1 = some "simulated write failure" ↔
      (simulateFailureIfRequired 3 3).2 = 0) :=
  ⟨(counter_stays_within_failure_count 3 (by decide) (by decide)).1 7,
    ((counter_stays_within_failure_count 3 (by decide) (by decide)).2 3 (by decide)).2.2.1⟩

/-- C15: on an update with no writes, a call that does not signal a simulated
failure joins the empty list to the empty text and appends exactly the
one-character text "\\n" to the file, and it counts as a call: the counter is
incremented, as a `uint`. This is what every such call that returns leaves, and
the call does return when the file operations succeed. -/
theorem empty_update_appends_one_newline {W : Type} (N : Nat)
    (marshal : W → Except String String) (io : IOFaults) (st : State)
    (hpass : (simulateFailureIfRequired N st.transactionCount).1 = none) :
    Join [] "\n" = "" ∧
    ApplyWritesToOffChainStore N marshal noFaults ⟨[]⟩ st =
      .ok { st with transactionCount := (st.transactionCount + 1) % uintModulus
                    file := st.file ++ "\n" } ∧
    (∀ st1 : State, ApplyWritesToOffChainStore N marshal io ⟨[]⟩ st = .ok st1 →
      st1.file = st.file ++ "\n" ∧
      st1.transactionCount = (st.transactionCount + 1) % uintModulus ∧
      st1.stdout = st.stdout) ∧
    (st.transactionCount + 1 < uintModulus →
      (st.transactionCount + 1) % uintModulus = st.transactionCount + 1) := by
  have hcount : (simulateFailureIfRequired N st.transactionCount).2 =
      (st.transactionCount + 1) % uintModulus := by
    unfold simulateFailureIfRequired at hpass ⊢
    split
    · rename_i h
      rw [if_pos h] at hpass
      simp at hpass
    · rfl
  have hsim : simulateFailureIfRequired N st.transactionCount =
      (none, (st.transactionCount + 1) % uintModulus) := by
    rw [← hcount, ← hpass]
  have hjoin : Join [] "\n" ++ "\n" = "\n" := by decide
  refine ⟨rfl, ?_, ?_, fun h => Nat.mod_eq_of_lt h⟩
  · unfold ApplyWritesToOffChainStore
    rw [hsim]
    simp only
    rw [appendWrites_noFaults marshal ⟨[]⟩ _ [] rfl, hjoin]
  · intro st1 h
    obtain ⟨writes, hw, -, hst⟩ := apply_file_of_pass N marshal io ⟨[]⟩ st st1 hpass h
    simp only [marshalWrites, Except.ok.injEq] at hw
    subst hw
    rw [hst, hjoin, hcount]
    exact ⟨rfl, rfl, rfl⟩

/-- C15 on a one-line file with the counter at 2 and `N = 3`. -/
theorem empty_update_appends_one_newline_witness :
    ApplyWritesToOffChainStore 3 (fun w : String => Except.ok w) noFaults ⟨[]⟩
      ⟨2, "x\n", []⟩ = .ok ⟨3, "x\n\n", []⟩ :=
  (empty_update_appends_one_newline 3 (fun w : String => Except.ok w) noFaults
    ⟨2, "x\n", []⟩ (by decide)).2.1

end Store

end OffChainData

/-! ## Theorems: the transaction parser -/

namespace OffChainData

namespace Parser

theorem rangeAppend_ok_cons {α β : Type} (f : α → Except Panic β) (x : α) (rest : List α)
    (zs : List β) :
    rangeAppend f (x :: rest) = .ok zs ↔
      ∃ y ys, f x = .ok y ∧ rangeAppend f rest = .ok ys ∧ zs = y :: ys := by
  simp only [rangeAppend]
  cases hx : f x with
  | error e => simp
  | ok y =>
    cases hr : rangeAppend f rest with
    | error e => simp
    | ok ys =>
      simp only [Except.ok.injEq]
      constructor
      · intro h
        exact ⟨y, ys, rfl, rfl, h.symm⟩
      · rintro ⟨y1, ys1, h1, h2, h3⟩
        rw [h3, h1, h2]

/-- Running stage `f` over the whole list and then stage `g` over its results
gives a list exactly when running both stages on each element in turn does,
and then the same list. -/
theorem rangeAppend_andThen {α β γ : Type} (f : α → Except Panic β)
    (g : β → Except Panic γ) :
    ∀ (xs : List α) (zs : List γ),
      (match rangeAppend f xs with
        | .error e => Except.error e
        | .ok ys => rangeAppend g ys) = .ok zs ↔
      rangeAppend (andThen f g) xs = .ok zs
  | [], zs => by simp [rangeAppend]
  | x :: rest, zs => by
    have ih := rangeAppend_andThen f g rest
    rw [rangeAppend_ok_cons (andThen f g)]
    cases hx : f x with
    | error e => simp [rangeAppend, andThen, hx]
    | ok y =>
      cases hr : rangeAppend f rest with
      | error e =>
        have hno : ∀ zs1, rangeAppend (andThen f g) rest ≠ .ok zs1 := by
          intro zs1 h
          have := (ih zs1).mpr h
          rw [hr] at this
          simp at this
        simp only [rangeAppend, hx, hr]
        constructor
        · intro h
          simp at h
        · rintro ⟨z, zs1, -, h2, -⟩
          exact absurd h2 (hno zs1)
      | ok ys =>
        simp only [rangeAppend, hx, hr]
        have ih1 : ∀ zs1, rangeAppend g ys = .ok zs1 ↔
            rangeAppend (andThen f g) rest = .ok zs1 := by
          intro zs1
          have := ih zs1
          rw [hr] at this
          exact this
        have hcons := rangeAppend_ok_cons g y ys zs
        simp only [rangeAppend] at hcons
        rw [hcons]
        simp only [andThen, hx]
        constructor
        · rintro ⟨z, zs1, h1, h2, h3⟩
          exact ⟨z, zs1, h1, (ih1 zs1).mp h2, h3⟩
        · rintro ⟨z, zs1, h1, h2, h3⟩
          exact ⟨z, zs1, h1, (ih1 zs1).mpr h2, h3⟩

/-- The same with any continuation that gives a list exactly when stage `g`
over the whole list does. -/
theorem rangeAppend_fuse {α β γ : Type} (f : α → Except Panic β)
    (g : β → Except Panic γ) (G : List β → Except Panic (List γ))
    (hG : ∀ ys zs, G ys = .ok zs ↔ rangeAppend g ys = .ok zs)
    (xs : List α) (zs : List γ) :
    (match rangeAppend f xs with
      | .error e => Except.error e
      | .ok ys => G ys) = .ok zs ↔
    rangeAppend (andThen f g) xs = .ok zs := by
  rw [← rangeAppend_andThen f g xs zs]
  cases rangeAppend f xs with
  | error e => simp
  | ok ys => exact hG ys zs

/-- The four panicking stages run list by list give a list of chaincode
actions exactly when the four stages run action by action do, and then the
same list. -/
theorem chaincodeActions_ok_iff (um : ProtoUnmarshal) (p : EndorserTransactionImpl)
    (chaincodeActions : List ChaincodeAction) :
    p.chaincodeActions um = .ok chaincodeActions ↔
      rangeAppend (chaincodeActionOf um) (GetActions p.transaction) = .ok chaincodeActions := by
  have h34 := rangeAppend_andThen
    (fun endorsedAction : ChaincodeEndorsedAction =>
      unmarshalOrPanic um.proposalResponsePayload endorsedAction.proposalResponsePayload)
    (fun proposalResponsePayload : ProposalResponsePayload =>
      unmarshalOrPanic um.chaincodeAction proposalResponsePayload.extension)
  have h234 := rangeAppend_fuse
    (fun payload : ChaincodeActionPayload =>
      AssertDefined payload.action "missing chaincode endorsed action") _ _ h34
  have h1234 := rangeAppend_fuse
    (fun transactionAction : Option TransactionAction =>
      unmarshalOrPanic um.chaincodeActionPayload (GetPayload transactionAction)) _ _ h234
    (GetActions p.transaction) chaincodeActions
  have hfun : chaincodeActionOf um =
      andThen (fun transactionAction : Option TransactionAction =>
          unmarshalOrPanic um.chaincodeActionPayload (GetPayload transactionAction))
        (andThen (fun payload : ChaincodeActionPayload =>
            AssertDefined payload.action "missing chaincode endorsed action")
          (andThen (fun endorsedAction : ChaincodeEndorsedAction =>
              unmarshalOrPanic um.proposalResponsePayload
                endorsedAction.proposalResponsePayload)
            (fun proposalResponsePayload : ProposalResponsePayload =>
              unmarshalOrPanic um.chaincodeAction proposalResponsePayload.extension))) := by
    funext transactionAction
    simp only [chaincodeActionOf, andThen]
    cases unmarshalOrPanic um.chaincodeActionPayload (GetPayload transactionAction) with
    | error e => rfl
    | ok payload =>
      simp only
      cases AssertDefined payload.action "missing chaincode endorsed action" with
      | error e => rfl
      | ok endorsedAction =>
        simp only
        cases unmarshalOrPanic um.proposalResponsePayload
            endorsedAction.proposalResponsePayload with
        | error e => rfl
        | ok proposalResponsePayload => rfl
  rw [hfun, ← h1234]
  simp only [EndorserTransactionImpl.chaincodeActions,
    EndorserTransactionImpl.unmarshalChaincodeActionPayloads,
    extractChaincodeEndorsedActionsFrom, unmarshalProposalResponsePayloadsFrom,
    unmarshalChaincodeActionsFrom]
  cases rangeAppend (fun transactionAction : Option TransactionAction =>
      unmarshalOrPanic um.chaincodeActionPayload (GetPayload transactionAction))
      (GetActions p.transaction) with
  | error e => simp
  | ok l1 =>
    simp only
    cases rangeAppend (fun payload : ChaincodeActionPayload =>
        AssertDefined payload.action "missing chaincode endorsed action") l1 with
    | error e => simp
    | ok l2 =>
      simp only
      cases rangeAppend (fun endorsedAction : ChaincodeEndorsedAction =>
          unmarshalOrPanic um.proposalResponsePayload
            endorsedAction.proposalResponsePayload) l2 with
      | error e => simp
      | ok l3 => simp

theorem ReadWriteSets_eq (um : ProtoUnmarshal) (p : EndorserTransactionImpl) :
    p.ReadWriteSets um =
      match p.chaincodeActions um with
      | .error e => .error e
      | .ok chaincodeActions =>
        .ok (parseReadWriteSets (unmarshalTxReadWriteSetsFrom um chaincodeActions)) := by
  unfold EndorserTransactionImpl.ReadWriteSets EndorserTransactionImpl.chaincodeActions
  cases p.unmarshalChaincodeActionPayloads um with
  | error e => rfl
  | ok l1 =>
    simp only
    cases extractChaincodeEndorsedActionsFrom l1 with
    | error e => rfl
    | ok l2 =>
      simp only
      cases unmarshalProposalResponsePayloadsFrom um l2 with
      | error e => rfl
      | ok l3 => rfl

theorem rangeAppend_ok_mem {α β : Type} (f : α → Except Panic β) :
    ∀ (xs : List α) (ys : List β), rangeAppend f xs = .ok ys →
      ∀ x ∈ xs, ∃ y ∈ ys, f x = .ok y
  | [], _, _, x, hx => by simp at hx
  | x0 :: rest, ys, h, x, hx => by
    obtain ⟨y, ys1, h1, h2, h3⟩ := (rangeAppend_ok_cons f x0 rest ys).mp h
    subst h3
    rcases List.mem_cons.mp hx with rfl | hmem
    · exact ⟨y, List.mem_cons_self _ _, h1⟩
    · obtain ⟨y1, hy1, hf⟩ := rangeAppend_ok_mem f rest ys1 h2 x hmem
      exact ⟨y1, List.mem_cons_of_mem _ hy1, hf⟩

theorem rangeAppend_ok_of_forall {α β : Type} (f : α → Except Panic β) :
    ∀ xs : List α, (∀ x ∈ xs, ∃ y, f x = .ok y) → ∃ ys, rangeAppend f xs = .ok ys
  | [], _ => ⟨[], rfl⟩
  | x0 :: rest, h => by
    obtain ⟨y, hy⟩ := h x0 (List.mem_cons_self _ _)
    obtain ⟨ys, hys⟩ := rangeAppend_ok_of_forall f rest
      (fun x hx => h x (List.mem_cons_of_mem _ hx))
    exact ⟨y :: ys, (rangeAppend_ok_cons f x0 rest _).mpr ⟨y, ys, hy, hys, rfl⟩⟩

theorem rangeAppend_error_mem {α β : Type} (f : α → Except Panic β) :
    ∀ (xs : List α) (e : Panic), rangeAppend f xs = .error e → ∃ x ∈ xs, f x = .error e
  | [], e, h => by simp [rangeAppend] at h
  | x0 :: rest, e, h => by
    simp only [rangeAppend] at h
    cases hx : f x0 with
    | error e0 =>
      rw [hx] at h
      simp only [Except.error.injEq] at h
      exact ⟨x0, List.mem_cons_self _ _, by rw [hx, h]⟩
    | ok y =>
      rw [hx] at h
      cases hr : rangeAppend f rest with
      | error e1 =>
        rw [hr] at h
        simp only [Except.error.injEq] at h
        obtain ⟨x, hmem, hf⟩ := rangeAppend_error_mem f rest e1 hr
        exact ⟨x, List.mem_cons_of_mem _ hmem, by rw [hf, h]⟩
      | ok ys =>
        rw [hr] at h
        simp at h

/-- A list on which some element makes the step panic makes the loop panic. -/
theorem rangeAppend_error_of_mem {α β : Type} (f : α → Except Panic β) (xs : List α)
    (x : α) (hx : x ∈ xs) (e : Panic) (hf : f x = .error e) :
    ∃ e1, rangeAppend f xs = .error e1 := by
  cases h : rangeAppend f xs with
  | error e1 => exact ⟨e1, rfl⟩
  | ok ys =>
    obtain ⟨y, -, hy⟩ := rangeAppend_ok_mem f xs ys h x hx
    rw [hf] at hy
    simp at hy

/-- Stages 5-6 over the chaincode actions of a transaction are the
concatenation, in action order, of what each action contributes. -/
theorem parse_unmarshal_eq_flatMap (um : ProtoUnmarshal) :
    ∀ (actions : List (Option TransactionAction)) (chaincodeActions : List ChaincodeAction),
      rangeAppend (chaincodeActionOf um) actions = .ok chaincodeActions →
      parseReadWriteSets (unmarshalTxReadWriteSetsFrom um chaincodeActions) =
        actions.flatMap (readWriteSetsOfAction um)
  | [], cas, h => by
    simp only [rangeAppend, Except.ok.injEq] at h
    subst h
    rfl
  | a :: rest, cas, h => by
    obtain ⟨ca, cas1, h1, h2, h3⟩ := (rangeAppend_ok_cons _ a rest cas).mp h
    subst h3
    have ih := parse_unmarshal_eq_flatMap um rest cas1 h2
    rw [List.flatMap_cons, ← ih]
    simp only [readWriteSetsOfAction, h1, readWriteSetsOfChaincodeAction,
      unmarshalTxReadWriteSetsFrom]
    cases um.txReadWriteSet ca.results with
    | error e => rfl
    | ok t => rfl

theorem appendNamespaceReadWriteSets_eq_flatMap
    (parseNamespace : NsReadWriteSet → NamespaceReadWriteSet) :
    ∀ readWriteSets : List ReadWriteSet,
      appendNamespaceReadWriteSets parseNamespace readWriteSets =
        readWriteSets.flatMap (fun r => r.NamespaceReadWriteSets parseNamespace)
  | [] => rfl
  | r :: rest => by
    rw [appendNamespaceReadWriteSets, List.flatMap_cons,
      appendNamespaceReadWriteSets_eq_flatMap parseNamespace rest]

/-- When `ReadWriteSets` returns, every action passed stages 1-4 and the list is
the concatenation, in action order, of what each action contributes. -/
theorem ReadWriteSets_ok (um : ProtoUnmarshal) (p : EndorserTransactionImpl)
    (readWriteSets : List ReadWriteSet) (h : p.ReadWriteSets um = .ok readWriteSets) :
    (∀ a ∈ GetActions p.transaction, ∃ ca, chaincodeActionOf um a = .ok ca) ∧
    readWriteSets = (GetActions p.transaction).flatMap (readWriteSetsOfAction um) := by
  rw [ReadWriteSets_eq] at h
  cases hca : p.chaincodeActions um with
  | error e =>
    rw [hca] at h
    simp at h
  | ok cas =>
    rw [hca] at h
    simp only [Except.ok.injEq] at h
    have hr := (chaincodeActions_ok_iff um p cas).mp hca
    constructor
    · intro a ha
      obtain ⟨ca, -, hf⟩ := rangeAppend_ok_mem _ _ _ hr a ha
      exact ⟨ca, hf⟩
    · rw [← h, parse_unmarshal_eq_flatMap um _ cas hr]

/-- When every action passes stages 1-4, `ReadWriteSets` returns the
concatenation, in action order, of what each action contributes. -/
theorem ReadWriteSets_of_pass (um : ProtoUnmarshal) (p : EndorserTransactionImpl)
    (hpass : ∀ a ∈ GetActions p.transaction, ∃ ca, chaincodeActionOf um a = .ok ca) :
    p.ReadWriteSets um =
      .ok ((GetActions p.transaction).flatMap (readWriteSetsOfAction um)) := by
  obtain ⟨cas, hr⟩ := rangeAppend_ok_of_forall _ _ hpass
  have hca := (chaincodeActions_ok_iff um p cas).mpr hr
  rw [ReadWriteSets_eq, hca]
  simp only
  rw [parse_unmarshal_eq_flatMap um _ cas hr]

/-- When some action does not pass stages 1-4, `ReadWriteSets` panics. -/
theorem ReadWriteSets_error_of_mem (um : ProtoUnmarshal) (p : EndorserTransactionImpl)
    (a : Option TransactionAction) (ha : a ∈ GetActions p.transaction) (e : Panic)
    (hf : chaincodeActionOf um a = .error e) :
    ∃ e1, p.ReadWriteSets um = .error e1 := by
  cases h : p.ReadWriteSets um with
  | error e1 => exact ⟨e1, rfl⟩
  | ok r =>
    obtain ⟨ca, hca⟩ := (ReadWriteSets_ok um p r h).1 a ha
    rw [hf] at hca
    simp at hca

/-- An action that fails at one of the stages 1-4 makes the per-action chain
of these stages panic. -/
theorem chaincodeActionOf_error_of_stage_failure (um : ProtoUnmarshal)
    (a : Option TransactionAction)
    (hfail :
      (∃ err, um.chaincodeActionPayload (GetPayload a) = .error err) ∨
      (∃ payload, um.chaincodeActionPayload (GetPayload a) = .ok payload ∧
        payload.action = none) ∨
      (∃ payload endorsedAction err,
        um.chaincodeActionPayload (GetPayload a) = .ok payload ∧
        payload.action = some endorsedAction ∧
        um.proposalResponsePayload endorsedAction.proposalResponsePayload = .error err) ∨
      (∃ payload endorsedAction proposalResponsePayload err,
        um.chaincodeActionPayload (GetPayload a) = .ok payload ∧
        payload.action = some endorsedAction ∧
        um.proposalResponsePayload endorsedAction.proposalResponsePayload =
          .ok proposalResponsePayload ∧
        um.chaincodeAction proposalResponsePayload.extension = .error err)) :
    ∃ e, chaincodeActionOf um a = .error e := by
  rcases hfail with ⟨err, h1⟩ | ⟨payload, h1, h2⟩ | ⟨payload, ea, err, h1, h2, h3⟩ |
    ⟨payload, ea, prp, err, h1, h2, h3, h4⟩
  · exact ⟨.decode err, by simp [chaincodeActionOf, unmarshalOrPanic, h1]⟩
  · exact ⟨.assertion "missing chaincode endorsed action",
      by simp [chaincodeActionOf, unmarshalOrPanic, AssertDefined, h1, h2]⟩
  · exact ⟨.decode err,
      by simp [chaincodeActionOf, unmarshalOrPanic, AssertDefined, h1, h2, h3]⟩
  · exact ⟨.decode err,
      by simp [chaincodeActionOf, unmarshalOrPanic, AssertDefined, h1, h2, h3, h4]⟩

/-- C2: when some action of the transaction, at any position, fails at one of
the stages 1-4 (its payload bytes do not unmarshal, the parsed payload has no
endorsed action, the response-payload bytes do not unmarshal, or the extension
bytes do not unmarshal), `ReadWriteSets` panics, and so does
`NamespaceReadWriteSets` of a transaction whose payload holds this endorser
transaction: neither returns a list. -/
theorem stage_failure_fails_whole_decode (um : ProtoUnmarshal)
    (p : EndorserTransactionImpl) (a : Option TransactionAction)
    (ha : a ∈ GetActions p.transaction)
    (hfail :
      (∃ err, um.chaincodeActionPayload (GetPayload a) = .error err) ∨
      (∃ payload, um.chaincodeActionPayload (GetPayload a) = .ok payload ∧
        payload.action = none) ∨
      (∃ payload endorsedAction err,
        um.chaincodeActionPayload (GetPayload a) = .ok payload ∧
        payload.action = some endorsedAction ∧
        um.proposalResponsePayload endorsedAction.proposalResponsePayload = .error err) ∨
      (∃ payload endorsedAction proposalResponsePayload err,
        um.chaincodeActionPayload (GetPayload a) = .ok payload ∧
        payload.action = some endorsedAction ∧
        um.proposalResponsePayload endorsedAction.proposalResponsePayload =
          .ok proposalResponsePayload ∧
        um.chaincodeAction proposalResponsePayload.extension = .error err)) :
    (∃ e, p.ReadWriteSets um = .error e) ∧
    ∀ (parseNamespace : NsReadWriteSet → NamespaceReadWriteSet) (t : TransactionImpl),
      t.payload.EndorserTransaction = .ok p →
      ∃ e, t.NamespaceReadWriteSets um parseNamespace = .error e := by
  obtain ⟨e, he⟩ := chaincodeActionOf_error_of_stage_failure um a hfail
  obtain ⟨e1, he1⟩ := ReadWriteSets_error_of_mem um p a ha e he
  refine ⟨⟨e1, he1⟩, ?_⟩
  intro parseNamespace t ht
  refine ⟨e1, ?_⟩
  simp only [TransactionImpl.NamespaceReadWriteSets, ht, he1]

/-- C2 on a transaction whose first action decodes and whose second action has
payload bytes that do not unmarshal. -/
theorem stage_failure_fails_whole_decode_witness :
    ∃ e, (ParseEndorserTransaction
      (some ⟨[exampleActionA, exampleActionMalformed]⟩)).ReadWriteSets exampleUnmarshal =
        .error e :=
  (stage_failure_fails_whole_decode exampleUnmarshal
    (ParseEndorserTransaction (some ⟨[exampleActionA, exampleActionMalformed]⟩))
    exampleActionMalformed (by simp [ParseEndorserTransaction, GetActions])
    (Or.inl ⟨"cannot parse invalid wire-format data", rfl⟩)).1

/-- C3: when every action passes stages 1-4, `ReadWriteSets` returns, and its
list is the concatenation in action order of one entry for each action whose
results bytes unmarshal as a read/write set and no entry for each action whose
results bytes do not; `NamespaceReadWriteSets` then returns the namespace sets
of these entries. -/
theorem unparsable_results_contribute_nothing (um : ProtoUnmarshal)
    (p : EndorserTransactionImpl)
    (hpass : ∀ a ∈ GetActions p.transaction, ∃ ca, chaincodeActionOf um a = .ok ca) :
    p.ReadWriteSets um =
      .ok ((GetActions p.transaction).flatMap (readWriteSetsOfAction um)) ∧
    (∀ a ∈ GetActions p.transaction, ∀ ca, chaincodeActionOf um a = .ok ca →
      ((∃ err, um.txReadWriteSet ca.results = .error err) →
        readWriteSetsOfAction um a = []) ∧
      (∀ txReadWriteSet, um.txReadWriteSet ca.results = .ok txReadWriteSet →
        readWriteSetsOfAction um a = [ParseReadWriteSet txReadWriteSet])) ∧
    ∀ (parseNamespace : NsReadWriteSet → NamespaceReadWriteSet) (t : TransactionImpl),
      t.payload.EndorserTransaction = .ok p →
      t.NamespaceReadWriteSets um parseNamespace =
        .ok ((GetActions p.transaction).flatMap
          (namespaceReadWriteSetsOfAction um parseNamespace)) := by
  have hrw := ReadWriteSets_of_pass um p hpass
  refine ⟨hrw, ?_, ?_⟩
  · intro a _ ca hca
    constructor
    · rintro ⟨err, herr⟩
      simp [readWriteSetsOfAction, hca, readWriteSetsOfChaincodeAction, herr]
    · intro txReadWriteSet hok
      simp [readWriteSetsOfAction, hca, readWriteSetsOfChaincodeAction, hok]
  · intro parseNamespace t ht
    simp only [TransactionImpl.NamespaceReadWriteSets, ht, hrw,
      appendNamespaceReadWriteSets_eq_flatMap, List.flatMap_assoc]
    rfl

/-- C3 on the scenario: action A yields namespace `"assets"` with one write
under `"key1"`, the results bytes of action B do not unmarshal, and the decode
yields exactly the one namespace read/write set of A. -/
theorem unparsable_results_contribute_nothing_witness :
    (NewTransactionImpl (examplePayload (ParseEndorserTransaction
      (some ⟨[exampleActionA, exampleActionB]⟩)))).NamespaceReadWriteSets
        exampleUnmarshal exampleParseNamespace =
      .ok [⟨"assets", [], [⟨"key1", [65], false⟩]⟩] :=
  ((unparsable_results_contribute_nothing exampleUnmarshal
    (ParseEndorserTransaction (some ⟨[exampleActionA, exampleActionB]⟩))
    (by
      intro a ha
      simp only [ParseEndorserTransaction, GetActions, List.mem_cons, List.mem_singleton,
        List.not_mem_nil, or_false] at ha
      rcases ha with rfl | rfl
      · exact ⟨_, rfl⟩
      · exact ⟨_, rfl⟩)).2.2 exampleParseNamespace
    (NewTransactionImpl (examplePayload (ParseEndorserTransaction
      (some ⟨[exampleActionA, exampleActionB]⟩)))) rfl).trans rfl

/-- C4: when `NamespaceReadWriteSets` returns, its list is the concatenation,
in action order, of the namespace read/write sets of each action: for an action
whose results bytes unmarshal these are the namespace entries of its read/write
set, parsed one by one in source order, and for an action whose results bytes
do not unmarshal there are none. Being equal to this concatenation, the list
has no entry duplicated, dropped or out of order. -/
theorem namespace_sets_in_action_order (um : ProtoUnmarshal)
    (parseNamespace : NsReadWriteSet → NamespaceReadWriteSet) (t : TransactionImpl)
    (result : List NamespaceReadWriteSet)
    (h : t.NamespaceReadWriteSets um parseNamespace = .ok result) :
    ∃ p : EndorserTransactionImpl, t.payload.EndorserTransaction = .ok p ∧
      result = (GetActions p.transaction).flatMap
        (namespaceReadWriteSetsOfAction um parseNamespace) ∧
      ∀ a ∈ GetActions p.transaction, ∃ ca, chaincodeActionOf um a = .ok ca ∧
        ((∃ err, um.txReadWriteSet ca.results = .error err) →
          namespaceReadWriteSetsOfAction um parseNamespace a = []) ∧
        (∀ txReadWriteSet, um.txReadWriteSet ca.results = .ok txReadWriteSet →
          namespaceReadWriteSetsOfAction um parseNamespace a =
            txReadWriteSet.nsRwset.map parseNamespace) := by
  simp only [TransactionImpl.NamespaceReadWriteSets] at h
  cases hp : t.payload.EndorserTransaction with
  | error e =>
    rw [hp] at h
    simp at h
  | ok p =>
    rw [hp] at h
    simp only at h
    cases hr : p.ReadWriteSets um with
    | error e =>
      rw [hr] at h
      simp at h
    | ok readWriteSets =>
      rw [hr] at h
      simp only [Except.ok.injEq] at h
      obtain ⟨hpass, hrw⟩ := ReadWriteSets_ok um p readWriteSets hr
      refine ⟨p, rfl, ?_, ?_⟩
      · rw [← h, appendNamespaceReadWriteSets_eq_flatMap, hrw, List.flatMap_assoc]
        rfl
      · intro a ha
        obtain ⟨ca, hca⟩ := hpass a ha
        refine ⟨ca, hca, ?_, ?_⟩
        · rintro ⟨err, herr⟩
          simp [namespaceReadWriteSetsOfAction, readWriteSetsOfAction, hca,
            readWriteSetsOfChaincodeAction, herr]
        · intro txReadWriteSet hok
          simp [namespaceReadWriteSetsOfAction, readWriteSetsOfAction, hca,
            readWriteSetsOfChaincodeAction, hok, ReadWriteSet.NamespaceReadWriteSets,
            ParseReadWriteSet]

/-- C4 on a transaction of three actions, the middle one with results bytes
that do not unmarshal: the namespace sets of the first and the third action, in
that order. -/
theorem namespace_sets_in_action_order_witness :
    ∃ p : EndorserTransactionImpl,
      (examplePayload (ParseEndorserTransaction
        (some ⟨[exampleActionA, exampleActionB, some ⟨[], [1, 1, 1, 1, 66]⟩]⟩))).EndorserTransaction =
          .ok p ∧
      [⟨"assets", [], [⟨"key1", [65], false⟩]⟩, ⟨"assets", [], [⟨"key1", [66], false⟩]⟩] =
        (GetActions p.transaction).flatMap
          (namespaceReadWriteSetsOfAction exampleUnmarshal exampleParseNamespace) :=
  match namespace_sets_in_action_order exampleUnmarshal exampleParseNamespace
    (NewTransactionImpl (examplePayload (ParseEndorserTransaction
      (some ⟨[exampleActionA, exampleActionB, some ⟨[], [1, 1, 1, 1, 66]⟩]⟩))))
    [⟨"assets", [], [⟨"key1", [65], false⟩]⟩, ⟨"assets", [], [⟨"key1", [66], false⟩]⟩]
    rfl with
  | ⟨p, hp, hresult, _⟩ => ⟨p, hp, hresult⟩

/-- C8, as stated, fails: the first action's payload unmarshals to a message
without endorsed action, the second action's payload bytes do not unmarshal,
and `ReadWriteSets` panics with the unmarshal error of the second action, not
with "missing chaincode endorsed action". -/
theorem missing_endorsed_action_counterexample :
    (∃ payload, exampleUnmarshal.chaincodeActionPayload (GetPayload exampleActionNoEndorsed) =
      .ok payload ∧ payload.action = none) ∧
    (ParseEndorserTransaction
      (some ⟨[exampleActionNoEndorsed, exampleActionMalformed]⟩)).ReadWriteSets
        exampleUnmarshal = .error (.decode "cannot parse invalid wire-format data") ∧
    (ParseEndorserTransaction
      (some ⟨[exampleActionNoEndorsed, exampleActionMalformed]⟩)).ReadWriteSets
        exampleUnmarshal ≠ .error (.assertion "missing chaincode endorsed action") := by
  refine ⟨⟨_, rfl, rfl⟩, rfl, ?_⟩
  intro h
  have h2 : (ParseEndorserTransaction
      (some ⟨[exampleActionNoEndorsed, exampleActionMalformed]⟩)).ReadWriteSets
        exampleUnmarshal = .error (.decode "cannot parse invalid wire-format data") := rfl
  rw [h2] at h
  simp at h

/-- C8, amended: when the payload bytes of every action unmarshal and the
parsed payload of some action has no endorsed action, `ReadWriteSets` panics
with the structural error "missing chaincode endorsed action", which is no
unmarshal error. -/
theorem missing_endorsed_action_is_structural_error (um : ProtoUnmarshal)
    (p : EndorserTransactionImpl)
    (hparse : ∀ a ∈ GetActions p.transaction,
      ∃ payload, um.chaincodeActionPayload (GetPayload a) = .ok payload)
    (hmissing : ∃ a ∈ GetActions p.transaction,
      ∃ payload, um.chaincodeActionPayload (GetPayload a) = .ok payload ∧
        payload.action = none) :
    p.ReadWriteSets um = .error (.assertion "missing chaincode endorsed action") ∧
    ∀ err, p.ReadWriteSets um ≠ .error (.decode err) := by
  have hstage1 : ∃ payloads, p.unmarshalChaincodeActionPayloads um = .ok payloads := by
    apply rangeAppend_ok_of_forall
    intro a ha
    obtain ⟨payload, hpl⟩ := hparse a ha
    exact ⟨payload, by simp [unmarshalOrPanic, hpl]⟩
  obtain ⟨payloads, h1⟩ := hstage1
  obtain ⟨a, ha, payload, hpl, hnone⟩ := hmissing
  have hmem : ∃ payload1 ∈ payloads, payload1.action = none := by
    obtain ⟨y, hy, hf⟩ := rangeAppend_ok_mem _ _ _ h1 a ha
    simp only [unmarshalOrPanic, hpl, Except.ok.injEq] at hf
    exact ⟨y, hy, by rw [← hf]; exact hnone⟩
  obtain ⟨payload1, hmem1, hnone1⟩ := hmem
  have hstage2 : extractChaincodeEndorsedActionsFrom payloads =
      .error (.assertion "missing chaincode endorsed action") := by
    obtain ⟨e, he⟩ := rangeAppend_error_of_mem
      (fun payload : ChaincodeActionPayload =>
        AssertDefined payload.action "missing chaincode endorsed action")
      payloads payload1 hmem1 (.assertion "missing chaincode endorsed action")
      (by simp [AssertDefined, hnone1])
    obtain ⟨x, -, hx⟩ := rangeAppend_error_mem _ _ _ he
    have he2 : e = .assertion "missing chaincode endorsed action" := by
      simp only [AssertDefined] at hx
      split at hx
      · simp only [Except.error.injEq] at hx
        exact hx.symm
      · simp at hx
    rw [← he2]
    exact he
  have hres : p.ReadWriteSets um =
      .error (.assertion "missing chaincode endorsed action") := by
    simp only [EndorserTransactionImpl.ReadWriteSets, h1, hstage2]
  refine ⟨hres, ?_⟩
  intro err h
  rw [hres] at h
  simp at h

/-- C8 amended, on a transaction whose first action has no endorsed action and
whose second action decodes. -/
theorem missing_endorsed_action_is_structural_error_witness :
    (ParseEndorserTransaction
      (some ⟨[exampleActionNoEndorsed, exampleActionA]⟩)).ReadWriteSets exampleUnmarshal =
        .error (.assertion "missing chaincode endorsed action") :=
  (missing_endorsed_action_is_structural_error exampleUnmarshal
    (ParseEndorserTransaction (some ⟨[exampleActionNoEndorsed, exampleActionA]⟩))
    (by
      intro a ha
      simp only [ParseEndorserTransaction, GetActions, List.mem_cons, List.mem_singleton,
        List.not_mem_nil, or_false] at ha
      rcases ha with rfl | rfl
      · exact ⟨_, rfl⟩
      · exact ⟨_, rfl⟩)
    ⟨exampleActionNoEndorsed, by simp [ParseEndorserTransaction, GetActions],
      _, rfl, rfl⟩).1

/-- C11: `IsValid` and `ValidationCode` of a transaction built by
`NewTransactionImpl` are what the wrapped payload answers to `IsValid` and
`TransactionValidationCode`; over the payload implementation, `IsValid` is true
exactly when `ValidationCode` equals the canonical success code, and false for
every other code. -/
theorem IsValid_iff_ValidationCode_is_success (validCode : Int) (payload : Payload)
    (p : PayloadImpl) :
    (NewTransactionImpl payload).IsValid = payload.IsValid ∧
    (NewTransactionImpl payload).ValidationCode = payload.TransactionValidationCode ∧
    ((NewTransactionImpl (p.asPayload validCode)).IsValid = true ↔
      (NewTransactionImpl (p.asPayload validCode)).ValidationCode = validCode) ∧
    ((NewTransactionImpl (p.asPayload validCode)).IsValid = false ↔
      (NewTransactionImpl (p.asPayload validCode)).ValidationCode ≠ validCode) := by
  refine ⟨rfl, rfl, ?_, ?_⟩
  · simp [NewTransactionImpl, TransactionImpl.IsValid, TransactionImpl.ValidationCode,
      PayloadImpl.asPayload, PayloadImpl.IsValid, PayloadImpl.TransactionValidationCode]
  · simp [NewTransactionImpl, TransactionImpl.IsValid, TransactionImpl.ValidationCode,
      PayloadImpl.asPayload, PayloadImpl.IsValid, PayloadImpl.TransactionValidationCode]

/-- The per-action loop returns a list exactly when every action passes stages
1-4, and then the concatenation in action order of what each contributes. -/
theorem perActionLoop_ok_iff (um : ProtoUnmarshal) :
    ∀ (actions : List (Option TransactionAction)) (result : List ReadWriteSet),
      perActionLoop um actions = .ok result ↔
        (∀ a ∈ actions, ∃ ca, chaincodeActionOf um a = .ok ca) ∧
        result = actions.flatMap (readWriteSetsOfAction um)
  | [], result => by
    simp only [perActionLoop, Except.ok.injEq, List.not_mem_nil, false_implies,
      implies_true, true_and, List.flatMap_nil]
    exact eq_comm
  | a :: rest, result => by
    have ih := perActionLoop_ok_iff um rest
    simp only [perActionLoop, readWriteSetsOfActionInTurn, List.flatMap_cons]
    cases hca : chaincodeActionOf um a with
    | error e =>
      simp only
      constructor
      · intro h
        simp at h
      · rintro ⟨hall, -⟩
        obtain ⟨ca, hok⟩ := hall a (List.mem_cons_self _ _)
        rw [hca] at hok
        simp at hok
    | ok ca =>
      have hcontrib : readWriteSetsOfAction um a = readWriteSetsOfChaincodeAction um ca := by
        simp only [readWriteSetsOfAction, hca]
      simp only
      cases hrest : perActionLoop um rest with
      | error e =>
        simp only
        constructor
        · intro h
          simp at h
        · rintro ⟨hall, -⟩
          have := (ih (rest.flatMap (readWriteSetsOfAction um))).mpr
            ⟨fun b hb => hall b (List.mem_cons_of_mem _ hb), rfl⟩
          rw [hrest] at this
          simp at this
      | ok restResult =>
        obtain ⟨hallRest, hrestEq⟩ := (ih restResult).mp hrest
        simp only [Except.ok.injEq]
        constructor
        · intro h
          refine ⟨?_, ?_⟩
          · intro b hb
            rcases List.mem_cons.mp hb with rfl | hmem
            · exact ⟨ca, hca⟩
            · exact hallRest b hmem
          · rw [← h, hcontrib, hrestEq]
        · rintro ⟨-, h⟩
          rw [h, hcontrib, hrestEq]

/-- C13: the stage-by-stage `ReadWriteSets` and the pipeline that takes each
action through all stages in turn return a list on exactly the same
transactions, and then the same list; so they also panic on exactly the same
transactions. -/
theorem stage_by_stage_equals_per_action (um : ProtoUnmarshal)
    (p : EndorserTransactionImpl) :
    (∀ result : List ReadWriteSet,
      p.ReadWriteSets um = .ok result ↔ ReadWriteSetsPerAction um p = .ok result) ∧
    ((∃ e, p.ReadWriteSets um = .error e) ↔
      ∃ e, ReadWriteSetsPerAction um p = .error e) := by
  have hok : ∀ result : List ReadWriteSet,
      p.ReadWriteSets um = .ok result ↔ ReadWriteSetsPerAction um p = .ok result := by
    intro result
    rw [ReadWriteSetsPerAction, perActionLoop_ok_iff]
    constructor
    · intro h
      exact ReadWriteSets_ok um p result h
    · rintro ⟨hall, hres⟩
      rw [hres]
      exact ReadWriteSets_of_pass um p hall
  refine ⟨hok, ?_⟩
  constructor
  · rintro ⟨e, he⟩
    cases hper : ReadWriteSetsPerAction um p with
    | error e1 => exact ⟨e1, rfl⟩
    | ok result =>
      have := (hok result).mpr hper
      rw [he] at this
      simp at this
  · rintro ⟨e, he⟩
    cases hst : p.ReadWriteSets um with
    | error e1 => exact ⟨e1, rfl⟩
    | ok result =>
      have := (hok result).mp hst
      rw [he] at this
      simp at this

/-- The two pipelines may panic with different values: on a first action
without endorsed action and a second one with malformed payload bytes,
`ReadWriteSets` panics with the unmarshal error and the per-action pipeline
with the structural error. -/
theorem stage_by_stage_panic_may_differ :
    (ParseEndorserTransaction
      (some ⟨[exampleActionNoEndorsed, exampleActionMalformed]⟩)).ReadWriteSets
        exampleUnmarshal = .error (.decode "cannot parse invalid wire-format data") ∧
    ReadWriteSetsPerAction exampleUnmarshal (ParseEndorserTransaction
      (some ⟨[exampleActionNoEndorsed, exampleActionMalformed]⟩)) =
        .error (.assertion "missing chaincode endorsed action") :=
  ⟨rfl, rfl⟩

end Parser

end OffChainData

/-! ## Theorems: the parser over a heap -/

namespace OffChainData

namespace Parser

namespace OnHeap

theorem set_fresh (heap : Heap) (zero obj : Object) :
    (heap ++ [zero]).set heap.length obj = heap ++ [obj] := by
  induction heap with
  | nil => rfl
  | cons x xs ih => simp [List.set, ih]

/-- An object found at an address stays there when the heap grows. -/
theorem lookup_grow {heap : Heap} {a : Addr} {obj : Object} (extra : Heap)
    (h : heap[a]? = some obj) : (heap ++ extra)[a]? = some obj := by
  have hlt : a < heap.length := (List.getElem?_eq_some.mp h).1
  rw [List.getElem?_append_left hlt, h]

/-- The loop body allocates one object, at the first free address, and writes
nothing else. -/
theorem unmarshalFresh_eq (zero : Object) (decode : Bytes → Except String Object)
    (junk : Bytes → Object) (read : Heap → Bytes) (heap : Heap) :
    unmarshalFresh zero decode junk read heap =
      match decode (read (heap ++ [zero])) with
      | .error err => (.error (.decode err), heap ++ [junk (read (heap ++ [zero]))])
      | .ok obj => (.ok heap.length, heap ++ [obj]) := by
  simp only [unmarshalFresh, new, protoUnmarshal]
  cases decode (read (heap ++ [zero])) with
  | error err => simp only [set_fresh]
  | ok obj => simp only [set_fresh]

theorem unmarshalFresh_extends (zero : Object) (decode : Bytes → Except String Object)
    (junk : Bytes → Object) (read : Heap → Bytes) (heap : Heap) :
    ∃ extra, (unmarshalFresh zero decode junk read heap).2 = heap ++ extra := by
  rw [unmarshalFresh_eq]
  cases decode (read (heap ++ [zero])) with
  | error err => exact ⟨_, rfl⟩
  | ok obj => exact ⟨_, rfl⟩

/-- A loop whose body only extends the heap only extends the heap. -/
theorem rangeAppendH_extends {α β : Type} (step : α → Heap → Except Panic β × Heap)
    (hstep : ∀ x h, ∃ extra, (step x h).2 = h ++ extra) :
    ∀ (xs : List α) (heap : Heap),
      ∃ extra, (rangeAppendH step xs heap).2 = heap ++ extra
  | [], heap => ⟨[], by simp [rangeAppendH]⟩
  | x :: rest, heap => by
    obtain ⟨e1, h1⟩ := hstep x heap
    simp only [rangeAppendH]
    cases hs : step x heap with
    | mk r heap1 =>
      rw [hs] at h1
      simp only at h1
      subst h1
      cases r with
      | error e => exact ⟨e1, rfl⟩
      | ok y =>
        obtain ⟨e2, h2⟩ := rangeAppendH_extends step hstep rest (heap ++ e1)
        simp only
        cases hr : rangeAppendH step rest (heap ++ e1) with
        | mk r2 heap2 =>
          rw [hr] at h2
          simp only at h2
          subst h2
          cases r2 with
          | error e => exact ⟨e1 ++ e2, by simp⟩
          | ok ys => exact ⟨e1 ++ e2, by simp⟩

theorem unmarshalTxReadWriteSetsFrom_extends (um : ProtoUnmarshal) (junk : Bytes → Object) :
    ∀ (chaincodeActions : List Addr) (heap : Heap),
      ∃ extra, (unmarshalTxReadWriteSetsFrom um junk chaincodeActions heap).2 = heap ++ extra
  | [], heap => ⟨[], by simp [unmarshalTxReadWriteSetsFrom]⟩
  | ca :: rest, heap => by
    simp only [unmarshalTxReadWriteSetsFrom, new, protoUnmarshal]
    cases decodeTxReadWriteSet um (GetResults (heap ++ [.txReadWriteSet ⟨0, []⟩]) ca) with
    | error err =>
      simp only [set_fresh]
      obtain ⟨e2, h2⟩ := unmarshalTxReadWriteSetsFrom_extends um junk rest
        (heap ++ [junk (GetResults (heap ++ [.txReadWriteSet ⟨0, []⟩]) ca)])
      exact ⟨[junk (GetResults (heap ++ [.txReadWriteSet ⟨0, []⟩]) ca)] ++ e2,
        by rw [h2, List.append_assoc]⟩
    | ok obj =>
      simp only [set_fresh]
      obtain ⟨e2, h2⟩ := unmarshalTxReadWriteSetsFrom_extends um junk rest (heap ++ [obj])
      exact ⟨[obj] ++ e2, by rw [h2, List.append_assoc]⟩

/-- A call of `ReadWriteSets` only extends the heap: every object that was
there stays as it was. -/
theorem ReadWriteSets_extends (um : ProtoUnmarshal) (junk : Bytes → Object)
    (p : EndorserTransactionImpl) (heap : Heap) :
    ∃ extra, (p.ReadWriteSets um junk heap).2 = heap ++ extra := by
  obtain ⟨e1, h1⟩ := rangeAppendH_extends
    (fun transactionAction heap1 =>
      unmarshalFresh (.chaincodeActionPayload ⟨[], none⟩) (decodeChaincodeActionPayload um)
        junk (fun _ => GetPayload transactionAction) heap1)
    (fun x h => unmarshalFresh_extends _ _ _ _ h) (GetActions heap p.transaction) heap
  simp only [EndorserTransactionImpl.ReadWriteSets,
    EndorserTransactionImpl.unmarshalChaincodeActionPayloads]
  cases hs1 : rangeAppendH (fun transactionAction heap1 =>
      unmarshalFresh (.chaincodeActionPayload ⟨[], none⟩) (decodeChaincodeActionPayload um)
        junk (fun _ => GetPayload transactionAction) heap1)
      (GetActions heap p.transaction) heap with
  | mk r1 heap1 =>
    rw [hs1] at h1
    simp only at h1
    subst h1
    cases r1 with
    | error e => exact ⟨e1, rfl⟩
    | ok payloads =>
      simp only
      obtain ⟨e2, h2⟩ := rangeAppendH_extends
        (fun payload heap1 =>
          (AssertDefined (GetAction heap1 payload) "missing chaincode endorsed action", heap1))
        (fun x h => ⟨[], by simp⟩) payloads (heap ++ e1)
      simp only [extractChaincodeEndorsedActionsFrom]
      cases hs2 : rangeAppendH (fun payload heap1 =>
          (AssertDefined (GetAction heap1 payload) "missing chaincode endorsed action", heap1))
          payloads (heap ++ e1) with
      | mk r2 heap2 =>
        rw [hs2] at h2
        simp only at h2
        subst h2
        cases r2 with
        | error e => exact ⟨e1 ++ e2, by simp⟩
        | ok endorsedActions =>
          simp only
          obtain ⟨e3, h3⟩ := rangeAppendH_extends
            (fun endorsedAction heap1 =>
              unmarshalFresh (.proposalResponsePayload ⟨[], []⟩)
                (decodeProposalResponsePayload um) junk
                (fun heap2 => GetProposalResponsePayload heap2 endorsedAction) heap1)
            (fun x h => unmarshalFresh_extends _ _ _ _ h) endorsedActions
            (heap ++ e1 ++ e2)
          simp only [unmarshalProposalResponsePayloadsFrom]
          cases hs3 : rangeAppendH (fun endorsedAction heap1 =>
              unmarshalFresh (.proposalResponsePayload ⟨[], []⟩)
                (decodeProposalResponsePayload um) junk
                (fun heap2 => GetProposalResponsePayload heap2 endorsedAction) heap1)
              endorsedActions (heap ++ e1 ++ e2) with
          | mk r3 heap3 =>
            rw [hs3] at h3
            simp only at h3
            subst h3
            cases r3 with
            | error e => exact ⟨e1 ++ e2 ++ e3, by simp⟩
            | ok responsePayloads =>
              simp only
              obtain ⟨e4, h4⟩ := rangeAppendH_extends
                (fun proposalResponsePayload heap1 =>
                  unmarshalFresh (.chaincodeAction ⟨[], []⟩) (decodeChaincodeAction um)
                    junk (fun heap2 => GetExtension heap2 proposalResponsePayload) heap1)
                (fun x h => unmarshalFresh_extends _ _ _ _ h) responsePayloads
                (heap ++ e1 ++ e2 ++ e3)
              simp only [unmarshalChaincodeActionsFrom]
              cases hs4 : rangeAppendH (fun proposalResponsePayload heap1 =>
                  unmarshalFresh (.chaincodeAction ⟨[], []⟩) (decodeChaincodeAction um)
                    junk (fun heap2 => GetExtension heap2 proposalResponsePayload) heap1)
                  responsePayloads (heap ++ e1 ++ e2 ++ e3) with
              | mk r4 heap4 =>
                rw [hs4] at h4
                simp only at h4
                subst h4
                cases r4 with
                | error e => exact ⟨e1 ++ e2 ++ e3 ++ e4, by simp⟩
                | ok chaincodeActions =>
                  simp only
                  obtain ⟨e5, h5⟩ := unmarshalTxReadWriteSetsFrom_extends um junk
                    chaincodeActions (heap ++ e1 ++ e2 ++ e3 ++ e4)
                  exact ⟨e1 ++ e2 ++ e3 ++ e4 ++ e5, by rw [h5]; simp⟩

/-- A loop over pointers follows the loop over the values behind them: when
the body, run on a pointer, extends the heap and answers as the value-level
step does on the value pointed to, the loop extends the heap, panics with the
same value as the value-level loop, and returns pointers to the values the
value-level loop returns. -/
theorem rangeAppendH_refines {α β A B : Type}
    (Rin : Heap → α → A → Prop) (Rout : Heap → β → B → Prop)
    (step : α → Heap → Except Panic β × Heap) (f : A → Except Panic B)
    (hin : ∀ h extra x a, Rin h x a → Rin (h ++ extra) x a)
    (hout : ∀ h extra y b, Rout h y b → Rout (h ++ extra) y b)
    (hstep : ∀ h x a, Rin h x a → ∃ extra, (step x h).2 = h ++ extra ∧
      (∀ e, (step x h).1 = .error e → f a = .error e) ∧
      (∀ y, (step x h).1 = .ok y → ∃ b, f a = .ok b ∧ Rout (h ++ extra) y b)) :
    ∀ (xs : List α) (vs : List A) (heap : Heap), List.Forall₂ (Rin heap) xs vs →
      ∃ extra, (rangeAppendH step xs heap).2 = heap ++ extra ∧
        (∀ e, (rangeAppendH step xs heap).1 = .error e →
          Parser.rangeAppend f vs = .error e) ∧
        (∀ ys, (rangeAppendH step xs heap).1 = .ok ys →
          ∃ bs, Parser.rangeAppend f vs = .ok bs ∧
            List.Forall₂ (Rout (heap ++ extra)) ys bs)
  | [], vs, heap, hF => by
    cases hF
    refine ⟨[], by simp [rangeAppendH], ?_, ?_⟩
    · intro e he
      simp [rangeAppendH] at he
    · intro ys hys
      simp only [rangeAppendH, Except.ok.injEq] at hys
      subst hys
      exact ⟨[], rfl, List.Forall₂.nil⟩
  | x :: rest, vs, heap, hF => by
    cases hF with
    | cons hxa hrest =>
      rename_i a vs1
      obtain ⟨e1, h1, herr1, hok1⟩ := hstep heap x a hxa
      simp only [rangeAppendH]
      cases hs : step x heap with
      | mk r heap1 =>
        rw [hs] at h1 herr1 hok1
        simp only at h1 herr1 hok1
        subst h1
        cases r with
        | error e0 =>
          refine ⟨e1, rfl, ?_, ?_⟩
          · intro e he
            simp only [Except.error.injEq] at he
            subst he
            simp only [Parser.rangeAppend, herr1 e0 rfl]
          · intro ys hys
            simp at hys
        | ok y =>
          obtain ⟨b, hfa, hRy⟩ := hok1 y rfl
          have hrest1 : List.Forall₂ (Rin (heap ++ e1)) rest vs1 :=
            hrest.imp (fun x1 a1 h => hin heap e1 x1 a1 h)
          obtain ⟨e2, h2, herr2, hok2⟩ :=
            rangeAppendH_refines Rin Rout step f hin hout hstep rest vs1 (heap ++ e1) hrest1
          simp only
          cases hr : rangeAppendH step rest (heap ++ e1) with
          | mk r2 heap2 =>
            rw [hr] at h2 herr2 hok2
            simp only at h2 herr2 hok2
            subst h2
            cases r2 with
            | error e0 =>
              refine ⟨e1 ++ e2, by simp, ?_, ?_⟩
              · intro e he
                simp only [Except.error.injEq] at he
                subst he
                simp only [Parser.rangeAppend, hfa, herr2 e0 rfl]
              · intro ys hys
                simp at hys
            | ok ys0 =>
              obtain ⟨bs, hbs, hFbs⟩ := hok2 ys0 rfl
              refine ⟨e1 ++ e2, by simp, ?_, ?_⟩
              · intro e he
                simp at he
              · intro ys hys
                simp only [Except.ok.injEq] at hys
                subst hys
                refine ⟨b :: bs, by simp only [Parser.rangeAppend, hfa, hbs], ?_⟩
                rw [← List.append_assoc]
                exact List.Forall₂.cons (hout (heap ++ e1) e2 y b hRy) hFbs

theorem lookup_fresh (heap : Heap) (obj : Object) :
    (heap ++ [obj])[heap.length]? = some obj := by
  rw [List.getElem?_append_right (Nat.le_refl _)]
  simp

/-- The loop body on bytes that are read the same before and after the
allocation: it extends the heap, panics as the value-level unmarshalling does,
and returns a pointer to the message the value-level unmarshalling returns. -/
theorem unmarshalFresh_step {M : Type} (zero : Object)
    (decodeObject : Bytes → Except String Object) (junk : Bytes → Object)
    (read : Heap → Bytes) (heap : Heap) (decode : Bytes → Except String M)
    (inj : M → Object)
    (hdec : ∀ b, decodeObject b =
      match decode b with
      | .error err => .error err
      | .ok m => .ok (inj m))
    (bytes : Bytes) (hread : read (heap ++ [zero]) = bytes) :
    ∃ extra, (unmarshalFresh zero decodeObject junk read heap).2 = heap ++ extra ∧
      (∀ e, (unmarshalFresh zero decodeObject junk read heap).1 = .error e →
        unmarshalOrPanic decode bytes = .error e) ∧
      (∀ y, (unmarshalFresh zero decodeObject junk read heap).1 = .ok y →
        ∃ m, unmarshalOrPanic decode bytes = .ok m ∧
          (heap ++ extra)[y]? = some (inj m)) := by
  rw [unmarshalFresh_eq, hread, hdec bytes]
  simp only [unmarshalOrPanic]
  cases decode bytes with
  | error err =>
    refine ⟨[junk bytes], rfl, ?_, ?_⟩
    · intro e he
      simp only [Except.error.injEq] at he
      subst he
      rfl
    · intro y hy
      simp at hy
  | ok m =>
    refine ⟨[inj m], rfl, ?_, ?_⟩
    · intro e he
      simp at he
    · intro y hy
      simp only [Except.ok.injEq] at hy
      subst hy
      exact ⟨m, rfl, lookup_fresh heap (inj m)⟩

/-- Stage 1 over the heap follows stage 1 over the transaction behind the
pointer. -/
theorem stage1_refines (um : ProtoUnmarshal) (junk : Bytes → Object)
    (p : EndorserTransactionImpl) (heap : Heap) :
    ∃ extra, (p.unmarshalChaincodeActionPayloads um junk heap).2 = heap ++ extra ∧
      (∀ e, (p.unmarshalChaincodeActionPayloads um junk heap).1 = .error e →
        Parser.EndorserTransactionImpl.unmarshalChaincodeActionPayloads um
          ⟨transactionAt heap p.transaction⟩ = .error e) ∧
      (∀ ys, (p.unmarshalChaincodeActionPayloads um junk heap).1 = .ok ys →
        ∃ bs, Parser.EndorserTransactionImpl.unmarshalChaincodeActionPayloads um
            ⟨transactionAt heap p.transaction⟩ = .ok bs ∧
          List.Forall₂ (fun y b => (heap ++ extra)[y]? =
            some (Object.chaincodeActionPayload b)) ys bs) := by
  exact rangeAppendH_refines (fun _ x a => x = a)
    (fun h y b => h[y]? = some (Object.chaincodeActionPayload b))
    (fun transactionAction heap1 =>
      unmarshalFresh (.chaincodeActionPayload ⟨[], none⟩) (decodeChaincodeActionPayload um)
        junk (fun _ => GetPayload transactionAction) heap1)
    (fun transactionAction =>
      unmarshalOrPanic um.chaincodeActionPayload (GetPayload transactionAction))
    (fun _ _ _ _ h => h)
    (fun h extra y b hy => lookup_grow extra hy)
    (fun h x a hxa => by
      subst hxa
      exact unmarshalFresh_step (.chaincodeActionPayload ⟨[], none⟩)
        (decodeChaincodeActionPayload um) junk (fun _ => GetPayload x) h
        um.chaincodeActionPayload Object.chaincodeActionPayload
        (fun b => by
          unfold decodeChaincodeActionPayload
          cases um.chaincodeActionPayload b <;> rfl)
        (GetPayload x) rfl)
    (GetActions heap p.transaction) (GetActions heap p.transaction) heap
    (List.forall₂_same.mpr (fun _ _ => rfl))

/-- Stage 2 over the heap follows stage 2 over the payloads pointed to. -/
theorem stage2_refines (payloads : List Addr) (vs : List ChaincodeActionPayload)
    (heap : Heap)
    (hF : List.Forall₂ (fun y b => heap[y]? = some (Object.chaincodeActionPayload b))
      payloads vs) :
    ∃ extra, (extractChaincodeEndorsedActionsFrom payloads heap).2 = heap ++ extra ∧
      (∀ e, (extractChaincodeEndorsedActionsFrom payloads heap).1 = .error e →
        Parser.extractChaincodeEndorsedActionsFrom vs = .error e) ∧
      (∀ ys, (extractChaincodeEndorsedActionsFrom payloads heap).1 = .ok ys →
        ∃ bs, Parser.extractChaincodeEndorsedActionsFrom vs = .ok bs ∧
          List.Forall₂ (fun (y : EndorsedActionPtr) b =>
            ∃ m, (heap ++ extra)[y.payload]? = some (Object.chaincodeActionPayload m) ∧
              m.action = some b) ys bs) := by
  exact rangeAppendH_refines
    (fun h y b => h[y]? = some (Object.chaincodeActionPayload b))
    (fun h (y : EndorsedActionPtr) b =>
      ∃ m, h[y.payload]? = some (Object.chaincodeActionPayload m) ∧ m.action = some b)
    (fun payload heap1 =>
      (AssertDefined (GetAction heap1 payload) "missing chaincode endorsed action", heap1))
    (fun payload : ChaincodeActionPayload =>
      AssertDefined payload.action "missing chaincode endorsed action")
    (fun h extra y b hy => lookup_grow extra hy)
    (fun h extra y b hy => by
      obtain ⟨m, hm, ha⟩ := hy
      exact ⟨m, lookup_grow extra hm, ha⟩)
    (fun h x a hxa => by
      have hget : GetAction h x =
          match a.action with
          | some _ => some ⟨x⟩
          | none => none := by
        simp only [GetAction, hxa]
      refine ⟨[], by simp, ?_, ?_⟩
      · intro e he
        simp only [hget] at he
        cases hact : a.action with
        | none =>
          rw [hact] at he
          simp only [AssertDefined, Except.error.injEq] at he
          subst he
          show AssertDefined a.action "missing chaincode endorsed action" = _
          rw [hact]
          rfl
        | some ea =>
          rw [hact] at he
          simp [AssertDefined] at he
      · intro y hy
        simp only [hget] at hy
        cases hact : a.action with
        | none =>
          rw [hact] at hy
          simp [AssertDefined] at hy
        | some ea =>
          rw [hact] at hy
          simp only [AssertDefined, Except.ok.injEq] at hy
          subst hy
          refine ⟨ea, ?_, a, ?_, hact⟩
          · show AssertDefined a.action "missing chaincode endorsed action" = _
            rw [hact]
            rfl
          · simpa using hxa)
    payloads vs heap hF

/-- Stage 3 over the heap follows stage 3 over the endorsed actions pointed
to. -/
theorem stage3_refines (um : ProtoUnmarshal) (junk : Bytes → Object)
    (endorsedActions : List EndorsedActionPtr) (vs : List ChaincodeEndorsedAction)
    (heap : Heap)
    (hF : List.Forall₂ (fun (y : EndorsedActionPtr) b =>
      ∃ m, heap[y.payload]? = some (Object.chaincodeActionPayload m) ∧ m.action = some b)
      endorsedActions vs) :
    ∃ extra,
      (unmarshalProposalResponsePayloadsFrom um junk endorsedActions heap).2 =
        heap ++ extra ∧
      (∀ e, (unmarshalProposalResponsePayloadsFrom um junk endorsedActions heap).1 =
          .error e →
        Parser.unmarshalProposalResponsePayloadsFrom um vs = .error e) ∧
      (∀ ys, (unmarshalProposalResponsePayloadsFrom um junk endorsedActions heap).1 =
          .ok ys →
        ∃ bs, Parser.unmarshalProposalResponsePayloadsFrom um vs = .ok bs ∧
          List.Forall₂ (fun y b => (heap ++ extra)[y]? =
            some (Object.proposalResponsePayload b)) ys bs) := by
  exact rangeAppendH_refines
    (fun h (y : EndorsedActionPtr) b =>
      ∃ m, h[y.payload]? = some (Object.chaincodeActionPayload m) ∧ m.action = some b)
    (fun h y b => h[y]? = some (Object.proposalResponsePayload b))
    (fun endorsedAction heap1 =>
      unmarshalFresh (.proposalResponsePayload ⟨[], []⟩)
        (decodeProposalResponsePayload um) junk
        (fun heap2 => GetProposalResponsePayload heap2 endorsedAction) heap1)
    (fun endorsedAction : ChaincodeEndorsedAction =>
      unmarshalOrPanic um.proposalResponsePayload endorsedAction.proposalResponsePayload)
    (fun h extra y b hy => by
      obtain ⟨m, hm, ha⟩ := hy
      exact ⟨m, lookup_grow extra hm, ha⟩)
    (fun h extra y b hy => lookup_grow extra hy)
    (fun h x a hxa => by
      obtain ⟨m, hm, ha⟩ := hxa
      exact unmarshalFresh_step (.proposalResponsePayload ⟨[], []⟩)
        (decodeProposalResponsePayload um) junk
        (fun heap2 => GetProposalResponsePayload heap2 x) h
        um.proposalResponsePayload Object.proposalResponsePayload
        (fun b => by
          unfold decodeProposalResponsePayload
          cases um.proposalResponsePayload b <;> rfl)
        a.proposalResponsePayload
        (by
          have hm1 := lookup_grow [Object.proposalResponsePayload ⟨[], []⟩] hm
          simp only [GetProposalResponsePayload, hm1, ha]))
    endorsedActions vs heap hF

/-- Stage 4 over the heap follows stage 4 over the response payloads pointed
to. -/
theorem stage4_refines (um : ProtoUnmarshal) (junk : Bytes → Object)
    (responsePayloads : List Addr) (vs : List ProposalResponsePayload) (heap : Heap)
    (hF : List.Forall₂ (fun y b => heap[y]? = some (Object.proposalResponsePayload b))
      responsePayloads vs) :
    ∃ extra,
      (unmarshalChaincodeActionsFrom um junk responsePayloads heap).2 = heap ++ extra ∧
      (∀ e, (unmarshalChaincodeActionsFrom um junk responsePayloads heap).1 = .error e →
        Parser.unmarshalChaincodeActionsFrom um vs = .error e) ∧
      (∀ ys, (unmarshalChaincodeActionsFrom um junk responsePayloads heap).1 = .ok ys →
        ∃ bs, Parser.unmarshalChaincodeActionsFrom um vs = .ok bs ∧
          List.Forall₂ (fun y b => (heap ++ extra)[y]? =
            some (Object.chaincodeAction b)) ys bs) := by
  exact rangeAppendH_refines
    (fun h y b => h[y]? = some (Object.proposalResponsePayload b))
    (fun h y b => h[y]? = some (Object.chaincodeAction b))
    (fun proposalResponsePayload heap1 =>
      unmarshalFresh (.chaincodeAction ⟨[], []⟩) (decodeChaincodeAction um)
        junk (fun heap2 => GetExtension heap2 proposalResponsePayload) heap1)
    (fun proposalResponsePayload : ProposalResponsePayload =>
      unmarshalOrPanic um.chaincodeAction proposalResponsePayload.extension)
    (fun h extra y b hy => lookup_grow extra hy)
    (fun h extra y b hy => lookup_grow extra hy)
    (fun h x a hxa => by
      exact unmarshalFresh_step (.chaincodeAction ⟨[], []⟩)
        (decodeChaincodeAction um) junk (fun heap2 => GetExtension heap2 x) h
        um.chaincodeAction Object.chaincodeAction
        (fun b => by
          unfold decodeChaincodeAction
          cases um.chaincodeAction b <;> rfl)
        a.extension
        (by
          have hm1 := lookup_grow [Object.chaincodeAction ⟨[], []⟩] hxa
          simp only [GetExtension, hm1]))
    responsePayloads vs heap hF

/-- Stage 5 over the heap follows stage 5 over the chaincode actions pointed
to: the same actions are skipped, and the pointers kept point to the
read/write sets kept. -/
theorem stage5_refines (um : ProtoUnmarshal) (junk : Bytes → Object) :
    ∀ (chaincodeActions : List Addr) (vs : List ChaincodeAction) (heap : Heap),
      List.Forall₂ (fun y b => heap[y]? = some (Object.chaincodeAction b))
        chaincodeActions vs →
      ∃ extra,
        (unmarshalTxReadWriteSetsFrom um junk chaincodeActions heap).2 = heap ++ extra ∧
        List.Forall₂ (fun y b => (heap ++ extra)[y]? = some (Object.txReadWriteSet b))
          (unmarshalTxReadWriteSetsFrom um junk chaincodeActions heap).1
          (Parser.unmarshalTxReadWriteSetsFrom um vs)
  | [], vs, heap, hF => by
    cases hF
    exact ⟨[], by simp [unmarshalTxReadWriteSetsFrom],
      by simp [unmarshalTxReadWriteSetsFrom, Parser.unmarshalTxReadWriteSetsFrom]⟩
  | ca :: rest, vs, heap, hF => by
    cases hF with
    | cons hca hrest =>
      rename_i a vs1
      have hread : GetResults (heap ++ [Object.txReadWriteSet ⟨0, []⟩]) ca = a.results := by
        have hm1 := lookup_grow [Object.txReadWriteSet ⟨0, []⟩] hca
        simp only [GetResults, hm1]
      simp only [unmarshalTxReadWriteSetsFrom, new, protoUnmarshal, hread,
        decodeTxReadWriteSet, Parser.unmarshalTxReadWriteSetsFrom]
      cases hdec : um.txReadWriteSet a.results with
      | error err =>
        simp only [set_fresh]
        have hrest1 : List.Forall₂
            (fun y b => (heap ++ [junk a.results])[y]? = some (Object.chaincodeAction b))
            rest vs1 :=
          hrest.imp (fun y b h => lookup_grow _ h)
        obtain ⟨e2, h2, hF2⟩ := stage5_refines um junk rest vs1 _ hrest1
        refine ⟨[junk a.results] ++ e2, by rw [h2, List.append_assoc], ?_⟩
        rw [← List.append_assoc]
        exact hF2
      | ok m =>
        simp only [set_fresh]
        have hrest1 : List.Forall₂
            (fun y b => (heap ++ [Object.txReadWriteSet m])[y]? =
              some (Object.chaincodeAction b)) rest vs1 :=
          hrest.imp (fun y b h => lookup_grow _ h)
        obtain ⟨e2, h2, hF2⟩ := stage5_refines um junk rest vs1 _ hrest1
        refine ⟨[Object.txReadWriteSet m] ++ e2, by rw [h2, List.append_assoc], ?_⟩
        rw [← List.append_assoc]
        exact List.Forall₂.cons (lookup_grow e2 (lookup_fresh heap _)) hF2

theorem parseReadWriteSets_refines (heap : Heap) :
    ∀ (txReadWriteSets : List Addr) (vs : List TxReadWriteSet),
      List.Forall₂ (fun y b => heap[y]? = some (Object.txReadWriteSet b))
        txReadWriteSets vs →
      (parseReadWriteSets txReadWriteSets).map (fun r => r.value heap) =
        (Parser.parseReadWriteSets vs).map (fun v => some v.readWriteSet)
  | [], vs, hF => by
    cases hF
    rfl
  | y :: rest, vs, hF => by
    cases hF with
    | cons hy hrest =>
      rename_i b vs1
      simp only [parseReadWriteSets, Parser.parseReadWriteSets, List.map_cons,
        parseReadWriteSets_refines heap rest vs1 hrest]
      simp only [ReadWriteSet.value, ParseReadWriteSet, Parser.ParseReadWriteSet, hy]

/-- What a caller sees of a call of `ReadWriteSets` over the heap is what the
value-level `ReadWriteSets` returns on the transaction behind the pointer. -/
theorem ReadWriteSets_refines (um : ProtoUnmarshal) (junk : Bytes → Object)
    (p : EndorserTransactionImpl) (heap : Heap) :
    observe (p.ReadWriteSets um junk heap).2 (p.ReadWriteSets um junk heap).1 =
      observeValues (Parser.EndorserTransactionImpl.ReadWriteSets um
        ⟨transactionAt heap p.transaction⟩) := by
  obtain ⟨e1, h1, herr1, hok1⟩ := stage1_refines um junk p heap
  simp only [EndorserTransactionImpl.ReadWriteSets,
    Parser.EndorserTransactionImpl.ReadWriteSets]
  cases hs1 : p.unmarshalChaincodeActionPayloads um junk heap with
  | mk r1 heap1 =>
    rw [hs1] at h1 herr1 hok1
    simp only at h1 herr1 hok1
    subst h1
    cases r1 with
    | error e =>
      simp only [herr1 e rfl, observe, observeValues]
    | ok payloads =>
      obtain ⟨bs1, hp1, hF1⟩ := hok1 payloads rfl
      obtain ⟨e2, h2, herr2, hok2⟩ := stage2_refines payloads bs1 (heap ++ e1) hF1
      simp only [hp1]
      cases hs2 : extractChaincodeEndorsedActionsFrom payloads (heap ++ e1) with
      | mk r2 heap2 =>
        rw [hs2] at h2 herr2 hok2
        simp only at h2 herr2 hok2
        subst h2
        cases r2 with
        | error e =>
          simp only [herr2 e rfl, observe, observeValues]
        | ok endorsedActions =>
          obtain ⟨bs2, hp2, hF2⟩ := hok2 endorsedActions rfl
          obtain ⟨e3, h3, herr3, hok3⟩ :=
            stage3_refines um junk endorsedActions bs2 (heap ++ e1 ++ e2) hF2
          simp only [hp2]
          cases hs3 : unmarshalProposalResponsePayloadsFrom um junk endorsedActions
              (heap ++ e1 ++ e2) with
          | mk r3 heap3 =>
            rw [hs3] at h3 herr3 hok3
            simp only at h3 herr3 hok3
            subst h3
            cases r3 with
            | error e =>
              simp only [herr3 e rfl, observe, observeValues]
            | ok responsePayloads =>
              obtain ⟨bs3, hp3, hF3⟩ := hok3 responsePayloads rfl
              obtain ⟨e4, h4, herr4, hok4⟩ :=
                stage4_refines um junk responsePayloads bs3 (heap ++ e1 ++ e2 ++ e3) hF3
              simp only [hp3]
              cases hs4 : unmarshalChaincodeActionsFrom um junk responsePayloads
                  (heap ++ e1 ++ e2 ++ e3) with
              | mk r4 heap4 =>
                rw [hs4] at h4 herr4 hok4
                simp only at h4 herr4 hok4
                subst h4
                cases r4 with
                | error e =>
                  simp only [herr4 e rfl, observe, observeValues]
                | ok chaincodeActions =>
                  obtain ⟨bs4, hp4, hF4⟩ := hok4 chaincodeActions rfl
                  obtain ⟨e5, h5, hF5⟩ := stage5_refines um junk chaincodeActions bs4
                    (heap ++ e1 ++ e2 ++ e3 ++ e4) hF4
                  simp only [hp4, observe, observeValues]
                  rw [h5, parseReadWriteSets_refines _ _ _ hF5]

/-- A pointer into the heap reads the same transaction when the heap grows. -/
theorem transactionAt_grow (heap extra : Heap) (tx : Option Addr)
    (htx : ∀ a, tx = some a → a < heap.length) :
    transactionAt (heap ++ extra) tx = transactionAt heap tx := by
  cases tx with
  | none => rfl
  | some a =>
    simp only [transactionAt, List.getElem?_append_left (htx a rfl)]

theorem appendNamespaceReadWriteSets_eq
    (parseNamespace : NsReadWriteSet → NamespaceReadWriteSet) (heap : Heap) :
    ∀ readWriteSets : List ReadWriteSet,
      Except.ok (appendNamespaceReadWriteSets parseNamespace heap readWriteSets) =
        namespaceSetsOf parseNamespace (observe heap (.ok readWriteSets))
  | [] => rfl
  | r :: rest => by
    have ih := appendNamespaceReadWriteSets_eq parseNamespace heap rest
    simp only [namespaceSetsOf, observe, Except.ok.injEq] at ih
    simp only [namespaceSetsOf, observe, appendNamespaceReadWriteSets, List.map_cons,
      List.flatMap_cons, Except.ok.injEq, ih, ReadWriteSet.NamespaceReadWriteSets]

/-- The outcome of `NamespaceReadWriteSets` is decided by what the payload
answers and by what a caller sees of `ReadWriteSets` on that answer. -/
theorem NamespaceReadWriteSets_outcome (um : ProtoUnmarshal) (junk : Bytes → Object)
    (parseNamespace : NsReadWriteSet → NamespaceReadWriteSet) (t : TransactionImpl)
    (heap : Heap) :
    (t.NamespaceReadWriteSets um junk parseNamespace heap).1 =
      match t.payload.EndorserTransaction heap with
      | (.error e, _) => .error e
      | (.ok endorserTransaction, heap1) =>
        namespaceSetsOf parseNamespace
          (observeValues (Parser.EndorserTransactionImpl.ReadWriteSets um
            ⟨transactionAt heap1 endorserTransaction.transaction⟩)) := by
  simp only [TransactionImpl.NamespaceReadWriteSets]
  cases hs : t.payload.EndorserTransaction heap with
  | mk r heap1 =>
    cases r with
    | error e => rfl
    | ok endorserTransaction =>
      simp only
      rw [← ReadWriteSets_refines um junk endorserTransaction heap1]
      cases hr : endorserTransaction.ReadWriteSets um junk heap1 with
      | mk r2 heap2 =>
        cases r2 with
        | error e => rfl
        | ok readWriteSets =>
          simp only
          exact appendNamespaceReadWriteSets_eq parseNamespace heap2 readWriteSets

/-- When the payload method only extends the heap, so does
`NamespaceReadWriteSets`. -/
theorem NamespaceReadWriteSets_extends (um : ProtoUnmarshal) (junk : Bytes → Object)
    (parseNamespace : NsReadWriteSet → NamespaceReadWriteSet) (t : TransactionImpl)
    (hframe : ∀ h : Heap, ∃ extra, (t.payload.EndorserTransaction h).2 = h ++ extra)
    (heap : Heap) :
    ∃ extra, (t.NamespaceReadWriteSets um junk parseNamespace heap).2 = heap ++ extra := by
  obtain ⟨e1, h1⟩ := hframe heap
  simp only [TransactionImpl.NamespaceReadWriteSets]
  cases hs : t.payload.EndorserTransaction heap with
  | mk r heap1 =>
    rw [hs] at h1
    simp only at h1
    subst h1
    cases r with
    | error e => exact ⟨e1, rfl⟩
    | ok endorserTransaction =>
      obtain ⟨e2, h2⟩ := ReadWriteSets_extends um junk endorserTransaction (heap ++ e1)
      simp only
      cases hr : endorserTransaction.ReadWriteSets um junk (heap ++ e1) with
      | mk r2 heap2 =>
        rw [hr] at h2
        simp only at h2
        subst h2
        cases r2 with
        | error e => exact ⟨e1 ++ e2, by simp⟩
        | ok readWriteSets => exact ⟨e1 ++ e2, by simp⟩

theorem transactionAt_some {heap : Heap} {tx : Option Addr} {m : PeerTransaction}
    (h : transactionAt heap tx = some m) :
    ∃ a, tx = some a ∧ heap[a]? = some (Object.transaction m) := by
  cases tx with
  | none => simp [transactionAt] at h
  | some a =>
    refine ⟨a, rfl, ?_⟩
    simp only [transactionAt] at h
    split at h
    · rename_i tx1 heq
      simp only [Option.some.injEq] at h
      rw [heq, h]
    · simp at h

/-- C10: `ToProto` returns the wrapped pointer (`ParseEndorserTransaction(tx)
.ToProto()` is `tx`, `NewTransactionImpl(p).ToProto()` is `p.ToProto()`), and
the structure behind it is not altered by decoding: a call of `ReadWriteSets`
leaves every object that was on the heap as it was, writing only into messages
it allocates itself, so after the call the pointer returned by `ToProto` leads
to the same transaction and every serializer gives the same bytes on it. The
same holds of `NamespaceReadWriteSets` when the `EndorserTransaction` method of
the payload only extends the heap. -/
theorem ToProto_structure_unchanged_by_decoding (um : ProtoUnmarshal)
    (junk : Bytes → Object) (parseNamespace : NsReadWriteSet → NamespaceReadWriteSet)
    (tx : Option Addr) (payload : Payload) (heap : Heap) :
    (ParseEndorserTransaction tx).ToProto = tx ∧
    (NewTransactionImpl payload).ToProto = payload.ToProto ∧
    (∀ (a : Addr) (obj : Object), heap[a]? = some obj →
      ((ParseEndorserTransaction tx).ReadWriteSets um junk heap).2[a]? = some obj) ∧
    (∀ (m : PeerTransaction) (marshal : PeerTransaction → Bytes),
      transactionAt heap tx = some m →
      transactionAt ((ParseEndorserTransaction tx).ReadWriteSets um junk heap).2
        (ParseEndorserTransaction tx).ToProto = some m ∧
      (transactionAt ((ParseEndorserTransaction tx).ReadWriteSets um junk heap).2
        (ParseEndorserTransaction tx).ToProto).map marshal = some (marshal m)) ∧
    ((∀ h : Heap, ∃ extra, (payload.EndorserTransaction h).2 = h ++ extra) →
      ∀ (a : Addr) (obj : Object), heap[a]? = some obj →
        ((NewTransactionImpl payload).NamespaceReadWriteSets um junk parseNamespace
          heap).2[a]? = some obj) := by
  obtain ⟨extra, hext⟩ := ReadWriteSets_extends um junk (ParseEndorserTransaction tx) heap
  have hkeep : ∀ (a : Addr) (obj : Object), heap[a]? = some obj →
      ((ParseEndorserTransaction tx).ReadWriteSets um junk heap).2[a]? = some obj := by
    intro a obj h
    rw [hext]
    exact lookup_grow extra h
  refine ⟨rfl, rfl, hkeep, ?_, ?_⟩
  · intro m marshal hm
    obtain ⟨a, ha, hobj⟩ := transactionAt_some hm
    have hafter : transactionAt
        ((ParseEndorserTransaction tx).ReadWriteSets um junk heap).2
        (ParseEndorserTransaction tx).ToProto = some m := by
      subst ha
      have hk := hkeep a _ hobj
      simp only [EndorserTransactionImpl.ToProto, ParseEndorserTransaction,
        transactionAt] at hk ⊢
      rw [hk]
    exact ⟨hafter, by rw [hafter]; rfl⟩
  · intro hframe a obj h
    obtain ⟨extra2, hext2⟩ := NamespaceReadWriteSets_extends um junk parseNamespace
      (NewTransactionImpl payload) hframe heap
    rw [hext2]
    exact lookup_grow extra2 h

/-- C10 on the example heap: after `NamespaceReadWriteSets` the wire-level
payload behind `ToProto` is the object it was, and after `ReadWriteSets` the
transaction behind `ToProto` is the transaction it was. -/
theorem ToProto_structure_unchanged_by_decoding_witness :
    ((NewTransactionImpl examplePayloadAtZero).NamespaceReadWriteSets exampleUnmarshal
      exampleJunk exampleParseNamespace exampleHeap).2[1]? =
        some (Object.payload ⟨[], [7]⟩) ∧
    transactionAt ((ParseEndorserTransaction (some 0)).ReadWriteSets exampleUnmarshal
        exampleJunk exampleHeap).2 (ParseEndorserTransaction (some 0)).ToProto =
      some ⟨[exampleActionA, exampleActionB]⟩ :=
  ⟨(ToProto_structure_unchanged_by_decoding exampleUnmarshal exampleJunk
      exampleParseNamespace (some 0) examplePayloadAtZero exampleHeap).2.2.2.2
      (fun h => ⟨[], by simp [examplePayloadAtZero]⟩) 1 _ rfl,
    ((ToProto_structure_unchanged_by_decoding exampleUnmarshal exampleJunk
      exampleParseNamespace (some 0) examplePayloadAtZero exampleHeap).2.2.2.1
      ⟨[exampleActionA, exampleActionB]⟩ (fun _ => []) rfl).1⟩

/-- C12: a call of `ReadWriteSets` made on a heap that has grown since an
earlier call, in particular on the heap the earlier call left, shows the
caller the outcome of the earlier call: the same read/write sets in the same
order, or the same panic. The same holds of two calls of
`NamespaceReadWriteSets` when the `EndorserTransaction` method of the payload
is repeatable. The pointer of the decoder is a pointer into the heap. -/
theorem decoding_outcome_is_repeatable (um : ProtoUnmarshal) (junk : Bytes → Object)
    (parseNamespace : NsReadWriteSet → NamespaceReadWriteSet)
    (p : EndorserTransactionImpl) (t : TransactionImpl) (heap : Heap)
    (hp : ∀ a, p.transaction = some a → a < heap.length) :
    (∀ extra : Heap,
      observe (p.ReadWriteSets um junk (heap ++ extra)).2
          (p.ReadWriteSets um junk (heap ++ extra)).1 =
        observe (p.ReadWriteSets um junk heap).2 (p.ReadWriteSets um junk heap).1) ∧
    observe (p.ReadWriteSets um junk (p.ReadWriteSets um junk heap).2).2
        (p.ReadWriteSets um junk (p.ReadWriteSets um junk heap).2).1 =
      observe (p.ReadWriteSets um junk heap).2 (p.ReadWriteSets um junk heap).1 ∧
    (PayloadRepeatable t.payload heap →
      (t.NamespaceReadWriteSets um junk parseNamespace
          (t.NamespaceReadWriteSets um junk parseNamespace heap).2).1 =
        (t.NamespaceReadWriteSets um junk parseNamespace heap).1) := by
  have hgrow : ∀ extra : Heap,
      observe (p.ReadWriteSets um junk (heap ++ extra)).2
          (p.ReadWriteSets um junk (heap ++ extra)).1 =
        observe (p.ReadWriteSets um junk heap).2 (p.ReadWriteSets um junk heap).1 := by
    intro extra
    rw [ReadWriteSets_refines, ReadWriteSets_refines, transactionAt_grow heap extra _ hp]
  refine ⟨hgrow, ?_, ?_⟩
  · obtain ⟨extra, hext⟩ := ReadWriteSets_extends um junk p heap
    have h := hgrow extra
    rw [← hext] at h
    exact h
  · rintro ⟨hframe, answer, hanswer⟩
    obtain ⟨extra, hext⟩ :=
      NamespaceReadWriteSets_extends um junk parseNamespace t hframe heap
    rw [hext, NamespaceReadWriteSets_outcome, NamespaceReadWriteSets_outcome]
    have h1 := hanswer []
    have h2 := hanswer extra
    rw [List.append_nil] at h1
    cases hs1 : t.payload.EndorserTransaction heap with
    | mk r1 heap1 =>
      cases hs2 : t.payload.EndorserTransaction (heap ++ extra) with
      | mk r2 heap2 =>
        rw [hs1] at h1
        rw [hs2] at h2
        cases r1 with
        | error e1 =>
          cases r2 with
          | error e2 =>
            simp only at h1 h2
            rw [h1] at h2
            simp only [Except.error.injEq] at h2
            simp only [h2]
          | ok p2 =>
            simp only at h1 h2
            rw [h1] at h2
            simp at h2
        | ok p1 =>
          cases r2 with
          | error e2 =>
            simp only at h1 h2
            rw [h1] at h2
            simp at h2
          | ok p2 =>
            simp only at h1 h2
            rw [h1] at h2
            simp only [Except.ok.injEq] at h2
            simp only [h2]

/-- C12 on the example heap: the second call of `ReadWriteSets` and of
`NamespaceReadWriteSets` shows what the first call showed. -/
theorem decoding_outcome_is_repeatable_witness :
    observe ((ParseEndorserTransaction (some 0)).ReadWriteSets exampleUnmarshal exampleJunk
        ((ParseEndorserTransaction (some 0)).ReadWriteSets exampleUnmarshal exampleJunk
          exampleHeap).2).2
      ((ParseEndorserTransaction (some 0)).ReadWriteSets exampleUnmarshal exampleJunk
        ((ParseEndorserTransaction (some 0)).ReadWriteSets exampleUnmarshal exampleJunk
          exampleHeap).2).1 =
      observe ((ParseEndorserTransaction (some 0)).ReadWriteSets exampleUnmarshal
          exampleJunk exampleHeap).2
        ((ParseEndorserTransaction (some 0)).ReadWriteSets exampleUnmarshal
          exampleJunk exampleHeap).1 ∧
    ((NewTransactionImpl examplePayloadAtZero).NamespaceReadWriteSets exampleUnmarshal
        exampleJunk exampleParseNamespace
        ((NewTransactionImpl examplePayloadAtZero).NamespaceReadWriteSets exampleUnmarshal
          exampleJunk exampleParseNamespace exampleHeap).2).1 =
      ((NewTransactionImpl examplePayloadAtZero).NamespaceReadWriteSets exampleUnmarshal
        exampleJunk exampleParseNamespace exampleHeap).1 :=
  ⟨(decoding_outcome_is_repeatable exampleUnmarshal exampleJunk exampleParseNamespace
      (ParseEndorserTransaction (some 0)) (NewTransactionImpl examplePayloadAtZero)
      exampleHeap (by
        intro a ha
        simp only [ParseEndorserTransaction, Option.some.injEq] at ha
        subst ha
        decide)).2.1,
    (decoding_outcome_is_repeatable exampleUnmarshal exampleJunk exampleParseNamespace
      (ParseEndorserTransaction (some 0)) (NewTransactionImpl examplePayloadAtZero)
      exampleHeap (by
        intro a ha
        simp only [ParseEndorserTransaction, Option.some.injEq] at ha
        subst ha
        decide)).2.2
      ⟨fun h => ⟨[], by simp [NewTransactionImpl, examplePayloadAtZero]⟩,
        .ok (some ⟨[exampleActionA, exampleActionB]⟩),
        fun extra => by
          simp [NewTransactionImpl, examplePayloadAtZero, transactionAt, exampleHeap]⟩⟩

end OnHeap

end Parser

end OffChainData
